import Mathlib

/-!
Verification of the dashu arbitrary-precision arithmetic library.

This file shallowly embeds the data model and the operations of the dashu
repository (crates `dashu-int`, `dashu-float`, `dashu-base`) in Lean 4 and
proves or refutes the frozen specification claims about them.

Conventions of the embedding:

* `Word` is the 64-bit machine word (`W = 64`), `DoubleWord` is 128 bits.
  Machine integers are embedded as `Nat` with explicit `% 2^w` reductions
  wherever the Rust code can wrap.
* Word slices (`&[Word]`, `Buffer`) are little-endian `List Nat`.
* `Repr` (the tagged two-machine-word storage from `buffer.rs`) is embedded
  through its typed view: capacity 1 or 2 (inline words) is `Repr.small dw`
  with `dw` the double word `double_word(inline[0], inline[1])`, capacity
  at least 3 (heap pointer plus length) is `Repr.large ws` with `ws` the
  heap words.  `as_typed` / `into_typed` are then definitional.  The
  capacity bookkeeping (a pure allocation concern) is not modelled; the
  sign bit of the capacity is carried separately where signed values occur.
* In-place routines become functions returning the new buffer contents.
* Code that can panic is embedded with `Except Panic` / `Option`.

Functions of the repository whose defining file is not part of the given
sources (for instance the `div`, `add`, `shift`, `mul` word-slice kernels,
whose modules are referenced but absent) are modelled from the natural
language specification; each such definition carries a doc comment
starting with `Modelled from the spec:`.
-/

namespace Dashu

/-- Bits of one machine `Word` (`arch::word::Word`, 64-bit platform). -/
def WORD_BITS : Nat := 64

/-- `2 ^ WORD_BITS`, the radix of the little-endian word representation. -/
def WB : Nat := 2 ^ WORD_BITS

/-- Bound of a `DoubleWord` value. -/
def DWB : Nat := 2 ^ (2 * WORD_BITS)

/-- `dashu_base::Sign`. -/
inductive Sign where
  | positive
  | negative
deriving DecidableEq

/-- `Sign` multiplication (`impl Mul for Sign`). -/
def Sign.mul : Sign → Sign → Sign
  | .positive, s => s
  | .negative, .positive => .negative
  | .negative, .negative => .positive

/-- Apply a sign to a natural magnitude, giving an integer. -/
def Sign.apply : Sign → Nat → Int
  | .positive, n => (n : Int)
  | .negative, n => -(n : Int)

/-- The reasons for a panic that the embedded code distinguishes
(`error.rs` of dashu-int: `panic_divide_by_0`, `UBig::panic_negative`,
`panic_invalid_log_oprand`; plain `assert!` failures; dashu-float's
`panic_operate_with_inf`). -/
inductive Panic where
  | divideByZero
  | negativeUBig
  | invalidLogOperand
  | assertFail
  | operateWithInf
deriving DecidableEq

/-- Value of a little-endian word list (`Word`s from LSB to MSB). -/
def wordsVal : List Nat → Nat
  | [] => 0
  | w :: ws => w + WB * wordsVal ws

/-- `primitive::double_word(lo, hi)`: join two words into a double word. -/
def double_word (lo hi : Nat) : Nat := lo + WB * hi

/-- `primitive::split_dword`: split a double word into (lo, hi). -/
def split_dword (dw : Nat) : Nat × Nat := (dw % WB, dw / WB)

/-- `primitive::shrink_dword`: lower a double word to a word when the high
half is zero. -/
def shrink_dword (dw : Nat) : Option Nat :=
  if dw < WB then some dw else none

/-- The typed view of dashu-int's `Repr` (`TypedRepr` / `TypedReprRef` in
`buffer.rs`): capacity 1 or 2 keeps the two inline words, read as one
double word; capacity at least 3 refers to the heap words.  The unsigned
magnitude only; the sign bit is handled separately. -/
inductive Repr where
  | small (dw : Nat)
  | large (ws : List Nat)
deriving DecidableEq

/-- Numeric value of a `Repr`. -/
def Repr.val : Repr → Nat
  | .small dw => dw
  | .large ws => wordsVal ws

/-- Well-formedness of the inline form: the double word is in range (and
the invariant `capacity = 1 → inline[1] = 0`, `capacity = 2 →
inline[1] ≠ 0` is captured by merging both capacities into one value). -/
def Repr.wfSmall (dw : Nat) : Prop := dw < DWB

/-- Well-formedness of the heap form, from the `Repr` doc in `buffer.rs`:
at least 3 words, each a machine word, and no leading-zero word. -/
def Repr.wfLarge (ws : List Nat) : Prop :=
  3 ≤ ws.length ∧ (∀ w ∈ ws, w < WB) ∧ ws.getLast? ≠ some 0

instance (ws : List Nat) : Decidable (Repr.wfLarge ws) := by
  unfold Repr.wfLarge; infer_instance

/-- Well-formed `Repr`: the invariants listed in the `Repr` doc comment. -/
def Repr.wf : Repr → Prop
  | .small dw => Repr.wfSmall dw
  | .large ws => Repr.wfLarge ws

instance (r : Repr) : Decidable r.wf := by
  cases r <;> simp only [Repr.wf, Repr.wfSmall] <;> infer_instance

/-- A `Buffer` (heap-only word vector) is embedded as its word contents;
the capacity field only governs allocation and is not modelled. -/
abbrev Buffer := List Nat

def Buffer.len (b : Buffer) : Nat := List.length b

def Buffer.wf (b : Buffer) : Prop := ∀ w ∈ (b : List Nat), w < WB

instance (b : Buffer) : Decidable b.wf := by
  unfold Buffer.wf; infer_instance

/-- `Buffer::pop_zeros`: pop leading (most significant, i.e. trailing in
the little-endian list) zero words. -/
def Buffer.popZeros (b : Buffer) : Buffer :=
  ((b : List Nat).reverse.dropWhile (· == 0)).reverse

/-- `Buffer::shrink` only reallocates storage (capacity bookkeeping); the
word contents are unchanged, so it is the identity here. -/
def Buffer.shrink (b : Buffer) : Buffer := b

/-- `Repr::from_word`: single inline word, high word 0. -/
def Repr.fromWord (w : Nat) : Repr := .small w

/-- `Repr::from_dword`: inline double word, downgraded to a single word
when the high half is zero (both cases merge into `small`). -/
def Repr.fromDword (dw : Nat) : Repr := .small dw

/-- `Repr::zero`. -/
def Repr.zero : Repr := .small 0

/-- `Repr::one`. -/
def Repr.one : Repr := .small 1

/-- `Repr::from_buffer` exactly as written in `buffer.rs`: match on the
buffer length — 0, 1 or 2 words produce the inline form, otherwise the
buffer is shrunk and reinterpreted as the heap form.  (The code does NOT
call `pop_zeros`; its doc only recommends callers do so.) -/
def Repr.fromBuffer (buffer : Buffer) : Repr :=
  match buffer.len with
  | 0 => Repr.fromWord 0
  | 1 => Repr.fromWord ((buffer : List Nat).headI)
  | 2 => Repr.fromDword (double_word ((buffer : List Nat).headI)
      ((buffer : List Nat).tail.headI))
  | _ => .large (Buffer.shrink buffer)

/-- What the specification says `Repr::from_buffer` does (claim C2):
first `pop_zeros`, then the same length dispatch.  Stated separately so
that it can be compared against the code. -/
def Repr.fromBufferSpec (buffer : Buffer) : Repr :=
  Repr.fromBuffer (Buffer.popZeros buffer)

end Dashu

namespace Dashu

/-- Claim C2 (code_bug evaluation): on the buffer `[5, 0, 0]` (value 5
with two leading zero words) `Repr::from_buffer` as implemented keeps the
three-word heap form with a zero top word, while the claimed behaviour
(`pop_zeros` first) would give the inline `Small(5)`; so the claim's
"heap form never has a zero top word" consequence fails as well. -/
theorem C2_from_buffer_keeps_leading_zeros :
    Repr.fromBuffer ([5, 0, 0] : Buffer) = .large [5, 0, 0] ∧
    Repr.fromBufferSpec ([5, 0, 0] : Buffer) = .small 5 ∧
    ([5, 0, 0] : List Nat).getLast? = some 0 ∧
    ¬ (Repr.fromBuffer ([5, 0, 0] : Buffer)).wf := by
  refine ⟨rfl, rfl, rfl, ?_⟩
  decide

end Dashu

namespace Dashu

/-! ### dashu-float: representation and `from_parts_const` (claim C7) -/

/-- `u128::trailing_zeros` restricted to its uses here: number of times 2
divides `n` (for `n = 0` the Rust value would be 128; the zero case is
never reached below). -/
def tz (n : Nat) : Nat :=
  if h : n ≠ 0 ∧ n % 2 = 0 then tz (n / 2) + 1 else 0
termination_by n
decreasing_by exact Nat.div_lt_self (Nat.pos_of_ne_zero h.1) one_lt_two

/-- `u128::is_power_of_two`. -/
def isPowerOfTwo (n : Nat) : Bool := n == 2 ^ Nat.log2 n

/-- The float `Repr<B>` of dashu-float (`repr.rs`, not under `src/`; its
shape is fixed by §3 of the specification and by `fbig.rs`):
significand and exponent.  The exponent (`isize`) is embedded as an
unbounded integer; its machine-width overflow is out of the model. -/
structure FRepr where
  significand : Int
  exponent : Int
deriving DecidableEq

/-- `Context<R>` of dashu-float: the precision (0 means unlimited).  The
rounding policy type parameter is supplied separately where needed. -/
structure FContext where
  precision : Nat
deriving DecidableEq

/-- An `FBig` value: representation plus context.  The base `B` is a
function argument in this embedding rather than a type index. -/
structure FBig where
  repr : FRepr
  context : FContext
deriving DecidableEq

/-- `FBig::ZERO`: zero representation with precision 1. -/
def FBig.ZERO : FBig := ⟨⟨0, 0⟩, ⟨1⟩⟩

/-- Modelled from the spec: `IBig::from_parts_const(sign, dword)` (the
constructor lives in the missing `ubig.rs`/`ibig.rs` portions) applies the
sign to the double-word magnitude. -/
def IBig.fromPartsConst (sign : Sign) (dw : Nat) : Int := sign.apply dw

/-- The `while significand % B == 0 { significand /= B; exponent += 1 }`
normalization loop of `FBig::from_parts_const` (non-power-of-two branch).
(The `2 ≤ B` guard reflects the declared precondition `BASE ∈ [2,
isize::MAX]` of the type and makes the recursion well-founded; the Rust
loop would not terminate for `B ≤ 1` either.) -/
def divLoop (B : Nat) (m : Nat) (e : Int) : Nat × Int :=
  if h : 2 ≤ B ∧ m ≠ 0 ∧ m % B = 0 then divLoop B (m / B) (e + 1) else (m, e)
termination_by m
decreasing_by
  exact Nat.div_lt_self (Nat.pos_of_ne_zero h.2.1) (by omega)

/-- The digit-counting loop of `FBig::from_parts_const` (non-power-of-two
branch): `while let Some(next) = pow.checked_mul(B) { digits += 1; if next
> significand { break; } pow = next; }`.  `checked_mul` on `u128` succeeds
exactly when the product is below `2^128`.  (The `2 ≤ B ∧ 1 ≤ pow` guard
again only reflects the type's precondition and `pow`'s initial value 1.) -/
def digitsLoop (B m : Nat) (pow digits : Nat) : Nat :=
  if h : 2 ≤ B ∧ 1 ≤ pow ∧ pow * B < DWB then
    if pow * B > m then digits + 1
    else digitsLoop B m (pow * B) (digits + 1)
  else digits
termination_by DWB - pow
decreasing_by
  have h2 : pow * 2 ≤ pow * B := Nat.mul_le_mul_left pow h.1
  omega

/-- `FBig::from_parts_const` (fbig.rs): build a float from sign, a
double-word significand and an exponent, normalizing by trailing-zero
counting for power-of-two bases and by repeated division otherwise. -/
def FBig.fromPartsConst (B : Nat) (sign : Sign) (significand : Nat)
    (exponent : Int) : FBig :=
  if significand = 0 then FBig.ZERO
  else
    let st :=
      if isPowerOfTwo B then
        let base_bits := tz B
        let shift := tz significand / base_bits
        let significand := significand / 2 ^ (shift * base_bits)
        let exponent := exponent + shift
        -- digits = (DoubleWord::BITS - significand.leading_zeros() + base_bits - 1)
        --            / base_bits, and BITS - leading_zeros = bit length
        let digits := (Nat.log2 significand + 1 + base_bits - 1) / base_bits
        (significand, exponent, digits)
      else
        let (significand, exponent) := divLoop B significand exponent
        let digits := digitsLoop B significand 1 0
        (significand, exponent, digits)
    { repr := { significand := IBig.fromPartsConst sign st.1,
                exponent := st.2.1 },
      context := ⟨st.2.2⟩ }

theorem tz_two_pow (b : Nat) : tz (2 ^ b) = b := by
  induction b with
  | zero => rw [tz]; simp
  | succ k ih =>
    have h2 : (2 : Nat) ^ (k + 1) ≠ 0 := by positivity
    have h3 : 2 ^ (k + 1) % 2 = 0 := by
      simp [Nat.pow_succ, Nat.mul_mod_left]
    have h4 : 2 ^ (k + 1) / 2 = 2 ^ k := by
      rw [Nat.pow_succ]; exact Nat.mul_div_cancel _ two_pos
    rw [tz, dif_pos (And.intro h2 h3), h4, ih]

theorem pow_two_dvd_iff_le_tz :
    ∀ m, m ≠ 0 → ∀ k, (2 ^ k ∣ m ↔ k ≤ tz m) := by
  intro m
  induction m using Nat.strong_induction_on with
  | _ m ih =>
    intro hm k
    rw [tz]
    by_cases he : m % 2 = 0
    · rw [dif_pos (And.intro hm he)]
      obtain ⟨m', rfl⟩ := Nat.dvd_of_mod_eq_zero he
      have hm' : m' ≠ 0 := by rintro rfl; simp at hm
      have hlt : m' < 2 * m' := by
        have := Nat.pos_of_ne_zero hm'; omega
      have hdiv : 2 * m' / 2 = m' := by omega
      rw [hdiv]
      cases k with
      | zero => simp
      | succ j =>
        rw [Nat.succ_le_succ_iff, ← ih m' hlt hm' j, pow_succ,
          mul_comm (2 ^ j) 2, Nat.mul_dvd_mul_iff_left two_pos]
    · rw [dif_neg (fun hc => he hc.2)]
      constructor
      · intro hdvd
        cases k with
        | zero => exact Nat.le_refl 0
        | succ j =>
          have h2 : (2 : Nat) ∣ m :=
            dvd_trans (dvd_pow_self 2 (Nat.succ_ne_zero j)) hdvd
          exact absurd (Nat.mod_eq_zero_of_dvd h2) he
      · intro hk
        rw [Nat.le_zero.mp hk]
        exact one_dvd m

end Dashu

namespace Dashu

theorem dvd_pow_succ_of_dvd_div {B k m : Nat} (hB : 1 ≤ B)
    (hk : B ^ k ∣ m) (h : B ∣ m / B ^ k) : B ^ (k + 1) ∣ m := by
  obtain ⟨c, rfl⟩ := hk
  have hBk : 0 < B ^ k := Nat.pos_pow_of_pos k hB
  rw [Nat.mul_div_cancel_left c hBk] at h
  obtain ⟨d, rfl⟩ := h
  exact ⟨d, by ring⟩

theorem le_of_pow_dvd_of_not_dvd_div {B k m : Nat} (hB : 2 ≤ B)
    (hm : m ≠ 0) (hk : B ^ k ∣ m) (hnd : ¬ B ∣ m / B ^ k) :
    ∀ j, B ^ j ∣ m → j ≤ k := by
  intro j hj
  by_contra hgt
  have hsucc : B ^ (k + 1) ∣ m := dvd_trans (pow_dvd_pow B (by omega)) hj
  obtain ⟨c, rfl⟩ := hsucc
  have hBk : 0 < B ^ k := Nat.pos_pow_of_pos k (by omega)
  refine hnd ?_
  have hre : B ^ (k + 1) * c = B ^ k * (B * c) := by ring
  rw [hre, Nat.mul_div_cancel_left _ hBk]
  exact ⟨c, rfl⟩

theorem divLoop_spec (B : Nat) (hB : 2 ≤ B) :
    ∀ m, m ≠ 0 → ∀ e : Int, ∃ k : Nat,
      divLoop B m e = (m / B ^ k, e + (k : Int)) ∧
      B ^ k ∣ m ∧ ¬ B ∣ (m / B ^ k) := by
  intro m
  induction m using Nat.strong_induction_on with
  | _ m ih =>
    intro hm e
    rw [divLoop]
    by_cases hd : m % B = 0
    · rw [dif_pos ⟨hB, hm, hd⟩]
      obtain ⟨c, rfl⟩ := Nat.dvd_of_mod_eq_zero hd
      have hc : c ≠ 0 := by rintro rfl; simp at hm
      have hBc : B * c / B = c := Nat.mul_div_cancel_left c (by omega)
      have hlt : c < B * c := by
        have h1 := Nat.pos_of_ne_zero hc
        calc c = 1 * c := (Nat.one_mul c).symm
        _ < B * c := Nat.mul_lt_mul_of_lt_of_le (by omega) (le_refl c) h1
      obtain ⟨k, hk1, hk2, hk3⟩ := ih c hlt hc (e + 1)
      have hq : B * c / B ^ (k + 1) = c / B ^ k := by
        rw [pow_succ, mul_comm (B ^ k) B, ← Nat.div_div_eq_div_mul, hBc]
      refine ⟨k + 1, ?_, ?_, ?_⟩
      · rw [hBc, hk1, hq]
        congr 1
        push_cast
        ring
      · rw [pow_succ, mul_comm (B ^ k) B]
        exact mul_dvd_mul_left B hk2
      · rw [hq]; exact hk3
    · rw [dif_neg (fun hc => hd hc.2.2)]
      refine ⟨0, by simp, by simp, ?_⟩
      simp only [pow_zero, Nat.div_one]
      exact fun hc => hd (Nat.mod_eq_zero_of_dvd hc)

/-- Claim C7: `FBig::from_parts_const(sign, m, e)` returns a normalized
value: for nonzero double-word `m` the resulting significand is
`sign · (m / B^k)` with `B^k ∣ m` for the maximal such `k`, the exponent
is `e + k` (so the value `sign·m·B^e` is preserved), and the significand
is no longer divisible by the base; a zero significand yields the exact
zero `FBig::ZERO`. -/
theorem C7_from_parts_const_normalizes (B : Nat) (hB : 2 ≤ B) (sign : Sign)
    (m : Nat) (e : Int) (hm : m ≠ 0) (_hmlt : m < DWB) :
    (∃ k : Nat, (FBig.fromPartsConst B sign m e).repr.significand
            = sign.apply (m / B ^ k) ∧
          (FBig.fromPartsConst B sign m e).repr.exponent = e + (k : Int) ∧
          B ^ k ∣ m ∧ (∀ j, B ^ j ∣ m → j ≤ k) ∧
          ¬ B ∣ (m / B ^ k)) ∧
    FBig.fromPartsConst B sign 0 e = FBig.ZERO := by
  refine ⟨?_, by rw [FBig.fromPartsConst, if_pos rfl]⟩
  rw [FBig.fromPartsConst, if_neg hm]
  by_cases hp : isPowerOfTwo B
  · -- power-of-two base: trailing-zero counting
    have hBpow : B = 2 ^ Nat.log2 B := (Nat.beq_eq_true_eq _ _).mp hp
    set b := tz B with hbdef
    have hbB : B = 2 ^ b := by rw [hbdef, hBpow, tz_two_pow, ← hBpow]
    have hb1 : 1 ≤ b := by
      by_contra hb0
      have hz : b = 0 := by omega
      rw [hz] at hbB; simp at hbB; omega
    set k := tz m / b with hkdef
    have hdvd : B ^ k ∣ m := by
      rw [hbB, ← pow_mul, pow_two_dvd_iff_le_tz m hm]
      exact le_trans (le_of_eq (Nat.mul_comm b k))
        (Nat.div_mul_le_self (tz m) b)
    have hs : m / 2 ^ (k * b) = m / B ^ k := by
      rw [hbB, ← pow_mul, Nat.mul_comm b k]
    have hnd : ¬ B ∣ m / B ^ k := by
      intro hc
      have hsucc := dvd_pow_succ_of_dvd_div (by omega) hdvd hc
      rw [hbB, ← pow_mul, pow_two_dvd_iff_le_tz m hm] at hsucc
      have hkk : k + 1 ≤ tz m / b := by
        rw [Nat.le_div_iff_mul_le (by omega)]
        calc (k + 1) * b = b * (k + 1) := Nat.mul_comm _ _
        _ ≤ tz m := hsucc
      omega
    refine ⟨k, ?_, ?_, hdvd, le_of_pow_dvd_of_not_dvd_div hB hm hdvd hnd, hnd⟩
    · simp only [if_pos hp, IBig.fromPartsConst]
      rw [hs]
    · simp only [if_pos hp]
  · -- general base: repeated division
    obtain ⟨k, hk1, hk2, hk3⟩ := divLoop_spec B hB m hm e
    refine ⟨k, ?_, ?_, hk2, le_of_pow_dvd_of_not_dvd_div hB hm hk2 hk3, hk3⟩
    · simp only [if_neg hp, IBig.fromPartsConst, hk1]
    · simp only [if_neg hp, hk1]

/-- Witness for C7 at `B = 10`, `m = 12000`, `e = -3`. -/
theorem C7_witness :
    ((2 : Nat) ≤ 10 ∧ (12000 : Nat) ≠ 0 ∧ (12000 : Nat) < DWB) ∧
    ((∃ k : Nat, (FBig.fromPartsConst 10 .positive 12000 (-3)).repr.significand
            = Sign.positive.apply (12000 / 10 ^ k) ∧
          (FBig.fromPartsConst 10 .positive 12000 (-3)).repr.exponent
            = -3 + (k : Int) ∧
          10 ^ k ∣ 12000 ∧ (∀ j, 10 ^ j ∣ 12000 → j ≤ k) ∧
          ¬ 10 ∣ (12000 / 10 ^ k)) ∧
      FBig.fromPartsConst 10 .positive 0 (-3) = FBig.ZERO) :=
  ⟨⟨by norm_num, by norm_num, by decide⟩,
    C7_from_parts_const_normalizes 10 (by norm_num) .positive 12000 (-3)
      (by norm_num) (by decide)⟩

end Dashu

namespace Dashu

/-! ### dashu-float: division and its panic behaviour (claim C8) -/

/-- `dashu_base::Approximation`: an exact value or an inexact value with
an error indicator. -/
inductive Approximation (α : Type) (β : Type) where
  | exact (value : α)
  | inexact (value : α) (adjust : β)
deriving DecidableEq

/-- `Approximation::value()`. -/
def Approximation.value {α β : Type} : Approximation α β → α
  | .exact v => v
  | .inexact v _ => v

/-- Modelled from the spec: `Repr::is_infinite` of dashu-float's missing
`repr.rs` — zero significand with nonzero exponent (§3: `s = 0, e > 0` is
`+∞`, `s = 0, e < 0` is `-∞`). -/
def FRepr.isInfinite (r : FRepr) : Prop :=
  r.significand = 0 ∧ r.exponent ≠ 0

instance (r : FRepr) : Decidable r.isInfinite := by
  unfold FRepr.isInfinite; infer_instance

/-- Exact zero of dashu-float (§3): zero significand and zero exponent. -/
def FRepr.isExactZero (r : FRepr) : Prop :=
  r.significand = 0 ∧ r.exponent = 0

instance (r : FRepr) : Decidable r.isExactZero := by
  unfold FRepr.isExactZero; infer_instance

/-- Modelled from the spec: `Repr::<B>::new(significand, exponent)` of the
missing float `repr.rs` normalizes per §4.5: while the significand is
nonzero and divisible by B, divide it by B and increment the exponent;
the zero significand is stored with exponent 0 (exact zero). -/
def FRepr.new (B : Nat) (significand : Int) (exponent : Int) : FRepr :=
  if significand = 0 then ⟨0, 0⟩
  else
    let (m, e) := divLoop B significand.natAbs exponent
    ⟨(Int.sign significand) * (m : Int), e⟩

/-- Modelled from the spec: `utils::digit_len::<B>` of the missing newer
float utils — the number of base-B digits of the significand's magnitude
(`k` such that `B^(k-1) ≤ |s| < B^k`, 0 for zero). -/
def digitLen (B : Nat) (s : Int) : Nat :=
  if s = 0 then 0 else Nat.log B s.natAbs + 1

/-- Modelled from the spec: `utils::shl_digits_in_place::<B>(s, n)` —
"shifting by d digits in base B means multiply by `B^d`" (§4.5). -/
def shlDigits (B : Nat) (s : Int) (n : Nat) : Int := s * (B : Int) ^ n

/-- Modelled from the spec: `IBig::div_rem` (the integer division
operators live in a missing module).  Truncated (round-toward-zero)
division; dividing by zero panics. -/
def IBig.divRem (a b : Int) : Except Panic (Int × Int) :=
  if b = 0 then .error .divideByZero else .ok (a.tdiv b, a.tmod b)

/-- `Context::repr_div` (float `div.rs`): divide two float
representations at the context's precision.  The rounding policy `R` is
passed as the function `rnd` (its `round_ratio(q, r, d)` operation).
Panics are surfaced in `Except`: `check_inf_operands` (error.rs) for an
infinite operand, divide-by-zero from `IBig::div_rem`. -/
def Context.reprDiv (B : Nat) (rnd : Int → Int → Int → Int) (prec : Nat)
    (lhs rhs : FRepr) : Except Panic (Approximation FRepr Int) := do
  if lhs.isInfinite ∨ rhs.isInfinite then
    .error .operateWithInf
  else do
    let (q, r) ← IBig.divRem lhs.significand rhs.significand
    let e := lhs.exponent - rhs.exponent
    if r = 0 then
      pure (.exact (FRepr.new B q e))
    else
      let ddigits := digitLen B rhs.significand
      let st ←
        if q = 0 then do
          let rdigits := digitLen B r
          let shift := ddigits + prec - rdigits
          let r := shlDigits B r shift
          let e := e - (shift : Int)
          let (q0, r0) ← IBig.divRem r rhs.significand
          pure (q0, r0, e)
        else do
          let ndigits := digitLen B q + ddigits
          if ndigits < ddigits + prec then do
            let shift := ddigits + prec - ndigits
            let q := shlDigits B q shift
            let r := shlDigits B r shift
            let e := e - (shift : Int)
            let (q0, r0) ← IBig.divRem r rhs.significand
            pure (q + q0, r0, e)
          else
            pure (q, r, e)
      let (q, r, e) := st
      if r = 0 then
        pure (.exact (FRepr.new B q e))
      else
        let adjust := rnd q r rhs.significand
        pure (.inexact (FRepr.new B (q + adjust) e) adjust)

/-- Modelled from the spec: `Context::max` of the missing float `repr.rs`
— the context with the larger precision governs the result; precision 0
(unlimited) dominates. -/
def FContext.max (a b : FContext) : FContext :=
  if a.precision = 0 ∨ b.precision = 0 then ⟨0⟩
  else ⟨Nat.max a.precision b.precision⟩

/-- `impl Div<FBig> for FBig` (float `div.rs`): take the larger context
and divide through `Context::repr_div`, keeping the rounded value. -/
def FBig.divOp (B : Nat) (rnd : Int → Int → Int → Int) (lhs rhs : FBig) :
    Except Panic FBig :=
  let context := FContext.max lhs.context rhs.context
  (Context.reprDiv B rnd context.precision lhs.repr rhs.repr).map
    (fun v => FBig.mk v.value context)

/-- Claim C8: float division panics whenever either operand is an
infinity (zero significand, nonzero exponent), and division by the exact
zero (zero significand, zero exponent) panics as well; in these cases
`Context::repr_div` (and hence the `Div` operator) never returns a
value. -/
theorem C8_div_panics_on_inf_and_zero (B : Nat)
    (rnd : Int → Int → Int → Int) (prec : Nat) (lhs rhs : FRepr)
    (h : lhs.isInfinite ∨ rhs.isInfinite ∨ rhs.isExactZero) :
    (∃ p : Panic, Context.reprDiv B rnd prec lhs rhs = .error p) ∧
    (∀ ctxl ctxr : FContext,
      ∃ p : Panic, FBig.divOp B rnd ⟨lhs, ctxl⟩ ⟨rhs, ctxr⟩ = .error p) := by
  have key : ∃ p : Panic, ∀ prec', Context.reprDiv B rnd prec' lhs rhs = .error p := by
    by_cases hinf : lhs.isInfinite ∨ rhs.isInfinite
    · exact ⟨.operateWithInf, fun prec' => by
        rw [Context.reprDiv, if_pos hinf]⟩
    · have hz : rhs.significand = 0 := by
        rcases h with h1 | h2 | h3
        · exact absurd (Or.inl h1) hinf
        · exact absurd (Or.inr h2) hinf
        · exact h3.1
      refine ⟨.divideByZero, fun prec' => ?_⟩
      rw [Context.reprDiv, if_neg hinf]
      simp only [IBig.divRem, if_pos hz]
      rfl
  obtain ⟨p, hp⟩ := key
  refine ⟨⟨p, hp prec⟩, fun ctxl ctxr => ⟨p, ?_⟩⟩
  rw [FBig.divOp]
  rw [hp]
  rfl

end Dashu

namespace Dashu

/-- Witness for C8: dividing by `+∞` (significand 0, exponent 1) panics,
both at the `repr_div` level and through the `Div` operator. -/
theorem C8_witness :
    (FRepr.mk 0 1).isInfinite ∧
    (∃ p : Panic,
      Context.reprDiv 2 (fun _ _ _ => 0) 10 ⟨3, 0⟩ ⟨0, 1⟩ = .error p) ∧
    (∃ p : Panic,
      FBig.divOp 2 (fun _ _ _ => 0) ⟨⟨3, 0⟩, ⟨5⟩⟩ ⟨⟨0, 1⟩, ⟨7⟩⟩ = .error p) := by
  have T := C8_div_panics_on_inf_and_zero 2 (fun _ _ _ => 0) 10 ⟨3, 0⟩ ⟨0, 1⟩
    (Or.inr (Or.inl (by decide)))
  exact ⟨by decide, T.1, T.2 ⟨5⟩ ⟨7⟩⟩

end Dashu

namespace Dashu

/-! ### Word-list helpers shared by the dashu-int embeddings -/

/-- The little-endian word list of length `n` holding `v mod WB^n`. -/
def wordsOf (v : Nat) : Nat → List Nat
  | 0 => []
  | n + 1 => v % WB :: wordsOf (v / WB) n

theorem wordsOf_length (v n : Nat) : (wordsOf v n).length = n := by
  induction n generalizing v with
  | zero => rfl
  | succ k ih => simp [wordsOf, ih]

theorem wordsVal_wordsOf (v n : Nat) : wordsVal (wordsOf v n) = v % WB ^ n := by
  induction n generalizing v with
  | zero => simp [wordsOf, wordsVal, Nat.mod_one]
  | succ k ih =>
    simp only [wordsOf, wordsVal, ih]
    rw [pow_succ, mul_comm (WB ^ k) WB, Nat.mod_mul]

theorem wordsOf_mem_lt (v n : Nat) : ∀ w ∈ wordsOf v n, w < WB := by
  induction n generalizing v with
  | zero => simp [wordsOf]
  | succ k ih =>
    intro w hw
    simp only [wordsOf, List.mem_cons] at hw
    rcases hw with rfl | hw
    · exact Nat.mod_lt v (by decide)
    · exact ih _ _ hw

theorem wordsVal_lt (ws : List Nat) (h : ∀ w ∈ ws, w < WB) :
    wordsVal ws < WB ^ ws.length := by
  induction ws with
  | nil => simp [wordsVal]
  | cons w rest ih =>
    have hw : w < WB := h w (List.mem_cons_self _ _)
    have hr : wordsVal rest < WB ^ rest.length :=
      ih (fun x hx => h x (List.mem_cons_of_mem _ hx))
    simp only [wordsVal, List.length_cons, pow_succ]
    calc w + WB * wordsVal rest < WB + WB * wordsVal rest := by omega
    _ = WB * (wordsVal rest + 1) := by ring
    _ ≤ WB * WB ^ rest.length := Nat.mul_le_mul_left WB hr
    _ = WB ^ rest.length * WB := mul_comm _ _

theorem wordsVal_ge_of_last_ne_zero (ws : List Nat)
    (hne : ws ≠ []) (h : ws.getLast? ≠ some 0) :
    WB ^ (ws.length - 1) ≤ wordsVal ws := by
  induction ws with
  | nil => exact absurd rfl hne
  | cons w rest ih =>
    cases hr : rest with
    | nil =>
      subst hr
      simp only [List.getLast?_singleton] at h
      have : w ≠ 0 := fun hc => h (by rw [hc])
      simpa [wordsVal] using Nat.pos_of_ne_zero this
    | cons r rs =>
      subst hr
      have hlast : (w :: r :: rs).getLast? = (r :: rs).getLast? := by
        simp [List.getLast?_cons_cons]
      rw [hlast] at h
      have hrec := ih (by simp) h
      simp only [wordsVal, List.length_cons]
      have hstep : WB ^ (r :: rs).length ≤ WB * wordsVal (r :: rs) := by
        have : WB ^ (r :: rs).length = WB * WB ^ ((r :: rs).length - 1) := by
          simp only [List.length_cons, Nat.add_sub_cancel]
          rw [pow_succ']
        rw [this]
        exact Nat.mul_le_mul_left WB hrec
      have hlen : (w :: r :: rs).length - 1 = (r :: rs).length := by simp
      calc WB ^ ((w :: r :: rs).length - 1) = WB ^ (r :: rs).length := by
            rw [hlen]
      _ ≤ WB * wordsVal (r :: rs) := hstep
      _ ≤ w + WB * wordsVal (r :: rs) := Nat.le_add_left _ _

theorem wordsVal_popZeros (b : Buffer) :
    wordsVal (Buffer.popZeros b) = wordsVal b := by
  have key : ∀ l : List Nat, wordsVal (l.dropWhile (· == 0)).reverse
      = wordsVal l.reverse := by
    intro l
    induction l with
    | nil => rfl
    | cons x xs ih =>
      by_cases hx : x = 0
      · subst hx
        rw [List.dropWhile_cons_of_pos (by simp)]
        rw [ih]
        have hval : ∀ m : List Nat, wordsVal (m ++ [0]) = wordsVal m := by
          intro m
          induction m with
          | nil => simp [wordsVal]
          | cons y ys ihy => simp [wordsVal, ihy]
        simpa [List.reverse_cons] using (hval xs.reverse).symm
      · rw [List.dropWhile_cons_of_neg (by simpa using hx)]
  calc wordsVal (Buffer.popZeros b)
      = wordsVal (((b : List Nat).reverse.dropWhile (· == 0)).reverse) := rfl
  _ = wordsVal (b : List Nat).reverse.reverse := key (b : List Nat).reverse
  _ = wordsVal b := by rw [List.reverse_reverse]

theorem fromBuffer_val (b : Buffer) : (Repr.fromBuffer b).val = wordsVal b := by
  match b with
  | [] => rfl
  | [x] => simp [Repr.fromBuffer, Buffer.len, Repr.fromWord, Repr.val,
      wordsVal, List.headI]
  | [x, y] => simp [Repr.fromBuffer, Buffer.len, Repr.fromDword, Repr.val,
      wordsVal, double_word, List.headI]
  | x :: y :: z :: rest => rfl

end Dashu

namespace Dashu

/-! ### dashu-int: UBig subtraction (claim C6) -/

/-- Modelled from the spec: `impl From<Buffer> for UBig` (the missing
`ubig.rs`) converts a buffer into a canonical `Repr`; §4.1 has the
conversion canonicalize via `pop_zeros` before the inline/heap dispatch. -/
def ubigFromBuffer (b : Buffer) : Repr :=
  Repr.fromBuffer (Buffer.popZeros b)

/-- Modelled from the spec: `add::sub_dword_in_place(words, rhs)` (§4.2,
the `add` module is missing): subtract a double word from the buffer with
a rippling borrow; the words wrap modulo `WB^len` and the returned flag is
the final borrow. -/
def sub_dword_in_place (b : Buffer) (dw : Nat) : Buffer × Bool :=
  (wordsOf (wordsVal b + WB ^ b.length - dw) b.length,
   decide (wordsVal b < dw))

/-- Modelled from the spec: `add::sub_in_place(lhs, rhs)` (§4.2): subtract
the words of `rhs` from `lhs` (which is at least as long at every call
site), wrapping modulo `WB^lhs.len`, returning the final borrow. -/
def sub_in_place (lhs : Buffer) (rhs : List Nat) : Buffer × Bool :=
  (wordsOf (wordsVal lhs + WB ^ lhs.length - wordsVal rhs) lhs.length,
   decide (wordsVal lhs < wordsVal rhs))

/-- `ubig::sub_dword` (add_ops.rs): `a.checked_sub(b)`, panicking as a
negative `UBig` when the subtraction overflows. -/
def subDword (a b : Nat) : Except Panic Repr :=
  if b ≤ a then .ok (Repr.fromDword (a - b)) else .error .negativeUBig

/-- `ubig::sub_large_dword` (add_ops.rs): in-place double-word subtract,
`assert!(!overflow)`. -/
def subLargeDword (lhs : Buffer) (rhs : Nat) : Except Panic Repr :=
  let r := sub_dword_in_place lhs rhs
  if r.2 then .error .assertFail else .ok (ubigFromBuffer r.1)

/-- `ubig::sub_large` (add_ops.rs): panic as negative when `lhs` is the
shorter buffer or the word subtraction borrows. -/
def subLarge (lhs : Buffer) (rhs : List Nat) : Except Panic Repr :=
  if lhs.length < rhs.length then .error .negativeUBig
  else
    let r := sub_in_place lhs rhs
    if r.2 then .error .negativeUBig else .ok (ubigFromBuffer r.1)

/-- `ubig::sub_repr_val_val` (add_ops.rs): dispatch of `UBig - UBig` on
the small/large tags of both operands. -/
def subReprValVal : Repr → Repr → Except Panic Repr
  | .small dword0, .small dword1 => subDword dword0 dword1
  | .small _, .large _ => .error .negativeUBig
  | .large buffer0, .small dword1 => subLargeDword buffer0 dword1
  | .large buffer0, .large buffer1 => subLarge buffer0 buffer1

/-- The `Sub<&UBig> for &UBig` match (add_ops.rs lines 95-107); the four
arms call the same kernels as `sub_repr_val_val` after cloning the
borrowed buffers. -/
def subReprRefRef : Repr → Repr → Except Panic Repr
  | .small dword0, .small dword1 => subDword dword0 dword1
  | .small _, .large _ => .error .negativeUBig
  | .large buffer0, .small dword1 => subLargeDword buffer0 dword1
  | .large buffer0, .large buffer1 => subLarge buffer0 buffer1

theorem wfLarge_val_lower {ws : List Nat} (h : Repr.wfLarge ws) :
    DWB ≤ wordsVal ws := by
  obtain ⟨hlen, _, hlast⟩ := h
  have hne : ws ≠ [] := by
    intro hc; rw [hc] at hlen; simp at hlen
  have h1 := wordsVal_ge_of_last_ne_zero ws hne hlast
  have h2 : DWB ≤ WB ^ (ws.length - 1) := by
    have : WB ^ 2 ≤ WB ^ (ws.length - 1) :=
      Nat.pow_le_pow_right (by decide) (by omega)
    calc DWB = WB ^ 2 := by decide
    _ ≤ WB ^ (ws.length - 1) := this
  omega

theorem wf_val_lt_pow {r : Repr} (h : r.wf) :
    match r with
    | .small dw => dw < DWB
    | .large ws => wordsVal ws < WB ^ ws.length := by
  cases r with
  | small dw => exact h
  | large ws => exact wordsVal_lt ws h.2.1

/-- Value and panic behaviour of the common subtraction kernel dispatch,
shared by the owned-owned and borrowed-borrowed operator paths. -/
theorem subKernel_spec (a b : Repr) (ha : a.wf) (hb : b.wf) :
    (a.val < b.val → subReprValVal a b = .error .negativeUBig) ∧
    (b.val ≤ a.val → ∃ r : Repr,
      subReprValVal a b = .ok r ∧ r.val = a.val - b.val) := by
  cases a with
  | small d0 =>
    cases b with
    | small d1 =>
      constructor
      · intro hlt
        simp only [Repr.val] at hlt
        simp [subReprValVal, subDword, if_neg (by omega : ¬ d1 ≤ d0)]
      · intro hle
        simp only [Repr.val] at hle
        exact ⟨Repr.fromDword (d0 - d1), by
          simp [subReprValVal, subDword, if_pos hle], rfl⟩
    | large ws1 =>
      have hlt : d0 < wordsVal ws1 := by
        have h1 := wfLarge_val_lower hb
        have h2 : d0 < DWB := ha
        omega
      exact ⟨fun _ => rfl, fun hle => absurd hle (by
        simp only [Repr.val]; omega)⟩
  | large ws0 =>
    have hlow := wfLarge_val_lower ha
    have hup := wordsVal_lt ws0 ha.2.1
    cases b with
    | small d1 =>
      have hge : d1 ≤ wordsVal ws0 := by
        have h2 : d1 < DWB := hb
        omega
      constructor
      · intro hlt
        simp only [Repr.val] at hlt
        omega
      · intro _
        refine ⟨ubigFromBuffer (sub_dword_in_place ws0 d1).1, ?_, ?_⟩
        · simp only [subReprValVal, subLargeDword]
          rw [if_neg (by
            simp only [sub_dword_in_place, decide_eq_true_eq]
            omega)]
        · have hfit : wordsVal ws0 + WB ^ ws0.length - d1
              = (wordsVal ws0 - d1) + WB ^ ws0.length := by omega
          simp only [sub_dword_in_place, ubigFromBuffer]
          rw [fromBuffer_val, wordsVal_popZeros, wordsVal_wordsOf, hfit,
            Nat.add_mod_right, Nat.mod_eq_of_lt (by omega)]
          rfl
    | large ws1 =>
      have hlow1 := wfLarge_val_lower hb
      have hup1 := wordsVal_lt ws1 hb.2.1
      have hlastlow1 : WB ^ (ws1.length - 1) ≤ wordsVal ws1 :=
        wordsVal_ge_of_last_ne_zero ws1 (by
          intro hc; rw [hc] at hb; exact absurd hb.1 (by simp)) hb.2.2
      constructor
      · intro hlt
        simp only [Repr.val] at hlt
        simp only [subReprValVal, subLarge]
        by_cases hlen : ws0.length < ws1.length
        · rw [if_pos hlen]
        · rw [if_neg hlen]
          rw [if_pos (by
            simp only [sub_in_place, decide_eq_true_eq]
            exact hlt)]
      · intro hle
        simp only [Repr.val] at hle
        have hlen : ¬ ws0.length < ws1.length := by
          intro hc
          have h1 : WB ^ ws0.length ≤ WB ^ (ws1.length - 1) :=
            Nat.pow_le_pow_right (by decide) (by omega)
          omega
        refine ⟨ubigFromBuffer (sub_in_place ws0 ws1).1, ?_, ?_⟩
        · simp only [subReprValVal, subLarge]
          rw [if_neg hlen, if_neg (by
            simp only [sub_in_place, decide_eq_true_eq]
            omega)]
        · have hfit : wordsVal ws0 + WB ^ ws0.length - wordsVal ws1
              = (wordsVal ws0 - wordsVal ws1) + WB ^ ws0.length := by omega
          simp only [sub_in_place, ubigFromBuffer]
          rw [fromBuffer_val, wordsVal_popZeros, wordsVal_wordsOf, hfit,
            Nat.add_mod_right, Nat.mod_eq_of_lt (by omega)]
          rfl

theorem subReprRefRef_eq_valVal (a b : Repr) :
    subReprRefRef a b = subReprValVal a b := by
  cases a <;> cases b <;> rfl

/-- Claim C6: for well-formed `UBig` operands, `a - b` panics with the
"negative UBig" error exactly when `a < b`, and otherwise returns the
`UBig` of value `a - b`; this covers all small/large tag combinations of
both the owned (`sub_repr_val_val`) and the borrowed (`Sub<&UBig> for
&UBig`) dispatch paths. -/
theorem C6_sub_panics_iff_negative (a b : Repr) (ha : a.wf) (hb : b.wf) :
    (a.val < b.val →
      subReprValVal a b = .error .negativeUBig ∧
      subReprRefRef a b = .error .negativeUBig) ∧
    (b.val ≤ a.val → ∃ r : Repr,
      subReprValVal a b = .ok r ∧ subReprRefRef a b = .ok r ∧
      r.val = a.val - b.val) := by
  obtain ⟨h1, h2⟩ := subKernel_spec a b ha hb
  refine ⟨fun hlt => ⟨h1 hlt, ?_⟩, fun hle => ?_⟩
  · rw [subReprRefRef_eq_valVal]; exact h1 hlt
  · obtain ⟨r, hr1, hr2⟩ := h2 hle
    exact ⟨r, hr1, by rw [subReprRefRef_eq_valVal]; exact hr1, hr2⟩

/-- Witness for C6 at `a = 10`, `b = 3` (small operands). -/
theorem C6_witness :
    ((Repr.small 10).wf ∧ (Repr.small 3).wf) ∧
    (((Repr.small 10).val < (Repr.small 3).val →
      subReprValVal (.small 10) (.small 3) = .error .negativeUBig ∧
      subReprRefRef (.small 10) (.small 3) = .error .negativeUBig) ∧
    ((Repr.small 3).val ≤ (Repr.small 10).val → ∃ r : Repr,
      subReprValVal (.small 10) (.small 3) = .ok r ∧
      subReprRefRef (.small 10) (.small 3) = .ok r ∧
      r.val = (Repr.small 10).val - (Repr.small 3).val)) :=
  ⟨⟨by decide, by decide⟩,
    C6_sub_panics_iff_negative (.small 10) (.small 3) (by decide) (by decide)⟩

end Dashu

namespace Dashu

/-! ### dashu-int: constant divisors (claims C1, C10) -/

/-- Bit length of a value (`BITS - leading_zeros`). -/
def bitLen (n : Nat) : Nat := if n = 0 then 0 else Nat.log2 n + 1

/-- `Word::leading_zeros` (64-bit). -/
def leadingZeros64 (w : Nat) : Nat := 64 - bitLen w

/-- `DoubleWord::leading_zeros` (128-bit). -/
def leadingZeros128 (dw : Nat) : Nat := 128 - bitLen dw

/-- `math::shl_dword(dw, shift)` (missing `math.rs`), modelled from its
uses: the three words `(lo, mid, hi)` of `dw << shift` for `shift < 64`. -/
def shl_dword (dw shift : Nat) : Nat × Nat × Nat :=
  let v := dw * 2 ^ shift
  (v % WB, v / WB % WB, v / (WB * WB))

/-- Modelled from the spec: `FastDivideNormalized` (missing
`fast_div/mod.rs`) keeps a normalized single-word divisor together with a
Möller–Granlund reciprocal; the reciprocal only speeds the division up,
so the model keeps the divisor alone. -/
structure FastDivideNormalized where
  divisor : Nat
deriving DecidableEq

/-- `FastDivideNormalized::new`. -/
def FastDivideNormalized.new (d : Nat) : FastDivideNormalized := ⟨d⟩

/-- Modelled from the spec: `FastDivideNormalized::div_rem(dword)` —
exact double-word by normalized-word division. -/
def FastDivideNormalized.divRem (fd : FastDivideNormalized) (n : Nat) :
    Nat × Nat :=
  (n / fd.divisor, n % fd.divisor)

/-- Modelled from the spec: `FastDivideNormalized::div_rem_word(word)`. -/
def FastDivideNormalized.divRemWord (fd : FastDivideNormalized) (w : Nat) :
    Nat × Nat :=
  (w / fd.divisor, w % fd.divisor)

/-- Modelled from the spec: `FastDivideNormalized2` — a normalized
double-word divisor with its reciprocal. -/
structure FastDivideNormalized2 where
  divisor : Nat
deriving DecidableEq

/-- `FastDivideNormalized2::new`. -/
def FastDivideNormalized2.new (d : Nat) : FastDivideNormalized2 := ⟨d⟩

/-- Modelled from the spec: `FastDivideNormalized2::div_rem(n0, n12)` —
divide the three-word value `n12·WB + n0` by the normalized divisor. -/
def FastDivideNormalized2.divRem (fd : FastDivideNormalized2)
    (n0 n12 : Nat) : Nat × Nat :=
  ((n12 * WB + n0) / fd.divisor, (n12 * WB + n0) % fd.divisor)

/-- Modelled from the spec: `FastDivideNormalized2::div_rem_dword`. -/
def FastDivideNormalized2.divRemDword (fd : FastDivideNormalized2)
    (dw : Nat) : Nat × Nat :=
  (dw / fd.divisor, dw % fd.divisor)

/-- `ConstSingleDivisor` (const_div.rs). -/
structure ConstSingleDivisor where
  shift : Nat
  fast_div : FastDivideNormalized
deriving DecidableEq

/-- `ConstSingleDivisor::new(n)`: normalize by the leading zeros. -/
def ConstSingleDivisor.new (n : Nat) : ConstSingleDivisor :=
  let shift := leadingZeros64 n
  ⟨shift, FastDivideNormalized.new (n * 2 ^ shift)⟩

/-- `ConstSingleDivisor::divisor()`: unshift the normalized divisor. -/
def ConstSingleDivisor.divisor (d : ConstSingleDivisor) : Nat :=
  d.fast_div.divisor / 2 ^ d.shift

/-- `ConstSingleDivisor::rem_dword`: `(dword << shift) % self`. -/
def ConstSingleDivisor.remDword (d : ConstSingleDivisor) (dword : Nat) :
    Nat :=
  if d.shift = 0 then (d.fast_div.divRem dword).2
  else
    let t := shl_dword dword d.shift
    let r1 := (d.fast_div.divRem (double_word t.2.1 t.2.2)).2
    (d.fast_div.divRem (double_word t.1 r1)).2

/-- Modelled from the spec: `div::fast_rem_by_normalized_word` — the
remainder of the word list by the normalized divisor. -/
def fast_rem_by_normalized_word (words : List Nat)
    (fd : FastDivideNormalized) : Nat :=
  wordsVal words % fd.divisor

/-- `ConstSingleDivisor::rem_large`: `(words << shift) % self`. -/
def ConstSingleDivisor.remLarge (d : ConstSingleDivisor)
    (words : List Nat) : Nat :=
  let rem := fast_rem_by_normalized_word words d.fast_div
  if d.shift ≠ 0 then (d.fast_div.divRem (rem * 2 ^ d.shift)).2 else rem

/-- `ConstDoubleDivisor` (const_div.rs). -/
structure ConstDoubleDivisor where
  shift : Nat
  fast_div : FastDivideNormalized2
deriving DecidableEq

/-- `ConstDoubleDivisor::new(n)`. -/
def ConstDoubleDivisor.new (n : Nat) : ConstDoubleDivisor :=
  let shift := leadingZeros128 n
  ⟨shift, FastDivideNormalized2.new (n * 2 ^ shift)⟩

/-- `ConstDoubleDivisor::divisor()`. -/
def ConstDoubleDivisor.divisor (d : ConstDoubleDivisor) : Nat :=
  d.fast_div.divisor / 2 ^ d.shift

/-- `ConstDoubleDivisor::rem_dword`: `(dword << shift) % self`. -/
def ConstDoubleDivisor.remDword (d : ConstDoubleDivisor) (dword : Nat) :
    Nat :=
  if d.shift = 0 then (d.fast_div.divRemDword dword).2
  else
    let t := shl_dword dword d.shift
    (d.fast_div.divRem t.1 (double_word t.2.1 t.2.2)).2

/-- Modelled from the spec: `div::fast_rem_by_normalized_dword`. -/
def fast_rem_by_normalized_dword (words : List Nat)
    (fd : FastDivideNormalized2) : Nat :=
  wordsVal words % fd.divisor

/-- `ConstDoubleDivisor::rem_large`: `(words << shift) % self`. -/
def ConstDoubleDivisor.remLarge (d : ConstDoubleDivisor)
    (words : List Nat) : Nat :=
  let rem := fast_rem_by_normalized_dword words d.fast_div
  if d.shift ≠ 0 then
    let t := shl_dword rem d.shift
    (d.fast_div.divRem t.1 (double_word t.2.1 t.2.2)).2
  else rem

/-- `primitive::highest_dword`: the top two words as a double word. -/
def highest_dword (ws : List Nat) : Nat :=
  double_word (ws.getD (ws.length - 2) 0) (ws.getD (ws.length - 1) 0)

/-- `ConstLargeDivisor` (const_div.rs). -/
structure ConstLargeDivisor where
  normalized_modulus : List Nat
  shift : Nat
  fast_div_top : FastDivideNormalized2
deriving DecidableEq

/-- Modelled from the spec: `div::normalize(&mut n)` — shift the words
left by the leading zeros of the top word (so the top bit is set) and
precompute the reciprocal of the top double word (§4.2 "Division"). -/
def divNormalize (n : Buffer) : Buffer × Nat × FastDivideNormalized2 :=
  let shift := leadingZeros64 ((n : List Nat).getLast?.getD 0)
  let words := wordsOf (wordsVal n * 2 ^ shift) n.length
  (words, shift, FastDivideNormalized2.new (highest_dword words))

/-- `ConstLargeDivisor::new(n)`. -/
def ConstLargeDivisor.new (n : Buffer) : ConstLargeDivisor :=
  let t := divNormalize n
  ⟨t.1, t.2.1, t.2.2⟩

/-- Value of the stored (unshifted) large divisor. -/
def ConstLargeDivisor.divisorVal (d : ConstLargeDivisor) : Nat :=
  wordsVal d.normalized_modulus / 2 ^ d.shift

/-- Modelled from the spec: `div::div_rem_in_place(words, modulus,
fast_div_top, memory)` — multi-word division against the normalized
modulus; the remainder replaces the low `modulus.len()` words, the
quotient the rest, and the returned flag is the quotient's overflow bit
(§4.2, §4.4). -/
def div_rem_in_place (words : Buffer) (modulus : List Nat) :
    Buffer × Bool :=
  let a := wordsVal words
  let d := wordsVal modulus
  (wordsOf (a % d) modulus.length
      ++ wordsOf (a / d) (words.length - modulus.length),
   decide (WB ^ (words.length - modulus.length) ≤ a / d))

/-- Modelled from the spec: `div::div_rem_unshifted_in_place(words,
modulus, shift, fast_div_top, memory)` — divide by the unshifted divisor
`modulus >> shift`, leaving the remainder in normalized (shifted) form in
the low `modulus.len()` words and the quotient above, returning the
quotient's top word (§4.2, §4.4). -/
def div_rem_unshifted_in_place (words : Buffer) (modulus : List Nat)
    (shift : Nat) : Buffer × Nat :=
  let a := wordsVal words
  let n := wordsVal modulus / 2 ^ shift
  (wordsOf (a % n * 2 ^ shift) modulus.length
      ++ wordsOf (a / n) (words.length - modulus.length),
   a / n / WB ^ (words.length - modulus.length))

/-- Modelled from the spec: `shift::shr_in_place(words, shift)` — shift
right in place, returning the low bits dropped (§4.2 "Shifts"). -/
def shr_in_place (words : Buffer) (shift : Nat) : Buffer × Nat :=
  (wordsOf (wordsVal words / 2 ^ shift) words.length,
   wordsVal words % 2 ^ shift)

/-- Modelled from the spec: `div::fast_div_by_word_in_place(buffer,
shift, fast_div)` — divide the buffer in place by the single-word divisor
(quotient kept in the buffer, true remainder returned). -/
def fast_div_by_word_in_place (buffer : Buffer) (shift : Nat)
    (fast_div : FastDivideNormalized) : Buffer × Nat :=
  let d := fast_div.divisor / 2 ^ shift
  (wordsOf (wordsVal buffer / d) buffer.length, wordsVal buffer % d)

/-- Modelled from the spec: `div::fast_div_by_dword_in_place`. -/
def fast_div_by_dword_in_place (buffer : Buffer) (shift : Nat)
    (fast_div : FastDivideNormalized2) : Buffer × Nat :=
  let d := fast_div.divisor / 2 ^ shift
  (wordsOf (wordsVal buffer / d) buffer.length, wordsVal buffer % d)

/-- `ConstLargeDivisor::rem_large(words)`: `(words << shift) % self`
after shifting the dividend into normalized form. -/
def ConstLargeDivisor.remLarge (d : ConstLargeDivisor) (words : Buffer) :
    Buffer :=
  let words := wordsOf (wordsVal words * 2 ^ d.shift) (words.length + 1)
  if words.length ≥ d.normalized_modulus.length then
    let t := div_rem_in_place words d.normalized_modulus
    (t.1.take d.normalized_modulus.length : List Nat)
  else words

/-- `ConstDivisorRepr` (const_div.rs). -/
inductive ConstDivisorRepr where
  | single (d : ConstSingleDivisor)
  | double (d : ConstDoubleDivisor)
  | large (d : ConstLargeDivisor)
deriving DecidableEq

/-- The numeric value of the divisor a `ConstDivisorRepr` stands for. -/
def ConstDivisorRepr.val : ConstDivisorRepr → Nat
  | .single d => d.divisor
  | .double d => d.divisor
  | .large d => d.divisorVal

/-- `ConstDivisor::new(n)` (const_div.rs): dispatch on the size of the
modulus, panicking
on a zero modulus. -/
def ConstDivisor.new (n : Repr) : Except Panic ConstDivisorRepr :=
  match n with
  | .small dword =>
    if dword = 0 then .error .divideByZero
    else match shrink_dword dword with
      | some word => .ok (.single (ConstSingleDivisor.new word))
      | none => .ok (.double (ConstDoubleDivisor.new dword))
  | .large words => .ok (.large (ConstLargeDivisor.new words))

end Dashu

namespace Dashu

/-- `div_rem_small_single` (const_div.rs): shifted two-step division of a
double word by a single-word constant divisor. -/
def div_rem_small_single (lhs : Nat) (rhs : ConstSingleDivisor) :
    Nat × Nat :=
  let t := shl_dword lhs rhs.shift
  let qr1 := rhs.fast_div.divRem (double_word t.2.1 t.2.2)
  let qr0 := rhs.fast_div.divRem (double_word t.1 qr1.2)
  (double_word qr0.1 qr1.1, qr0.2 / 2 ^ rhs.shift)

/-- `div_rem_small_double` (const_div.rs). -/
def div_rem_small_double (lhs : Nat) (rhs : ConstDoubleDivisor) :
    Nat × Nat :=
  let t := shl_dword lhs rhs.shift
  let qr := rhs.fast_div.divRem t.1 (double_word t.2.1 t.2.2)
  (qr.1, qr.2 / 2 ^ rhs.shift)

/-- `impl Div<&ConstDivisorRepr> for TypedRepr` (const_div.rs). -/
def reprDivC : Repr → ConstDivisorRepr → Repr
  | .small dword, .single d => Repr.fromDword (div_rem_small_single dword d).1
  | .small dword, .double d => Repr.fromWord (div_rem_small_double dword d).1
  | .small _, .large _ => Repr.zero
  | .large buffer, .single d =>
    Repr.fromBuffer (fast_div_by_word_in_place buffer d.shift d.fast_div).1
  | .large buffer, .double d =>
    Repr.fromBuffer (fast_div_by_dword_in_place buffer d.shift d.fast_div).1
  | .large buffer, .large d =>
    let div_len := d.normalized_modulus.length
    if buffer.length < div_len then Repr.zero
    else
      let t := div_rem_unshifted_in_place buffer d.normalized_modulus d.shift
      Repr.fromBuffer ((t.1.drop div_len : List Nat) ++ [t.2])

/-- `rem_large_large` (const_div.rs). -/
def rem_large_large (lhs : Buffer) (rhs : ConstLargeDivisor) : Repr :=
  let modulus := rhs.normalized_modulus
  if lhs.length ≥ modulus.length then
    let t := div_rem_unshifted_in_place lhs modulus rhs.shift
    let l1 := (t.1.take modulus.length : List Nat)
    Repr.fromBuffer (shr_in_place l1 rhs.shift).1
  else Repr.fromBuffer lhs

/-- `impl Rem<&ConstDivisorRepr> for TypedRepr` (const_div.rs); the
by-reference (`TypedReprRef`) implementation has the same arms. -/
def reprRemC : Repr → ConstDivisorRepr → Repr
  | .small dword, .single d => Repr.fromWord (d.remDword dword / 2 ^ d.shift)
  | .small dword, .double d => Repr.fromDword (d.remDword dword / 2 ^ d.shift)
  | .small dword, .large _ => Repr.fromDword dword
  | .large buffer, .single d => Repr.fromWord (d.remLarge buffer / 2 ^ d.shift)
  | .large buffer, .double d => Repr.fromDword (d.remLarge buffer / 2 ^ d.shift)
  | .large buffer, .large d => rem_large_large buffer d

/-- `impl DivRem<&ConstDivisorRepr> for TypedRepr` (const_div.rs). -/
def reprDivRemC : Repr → ConstDivisorRepr → Repr × Repr
  | .small dword, .single d =>
    let qr := div_rem_small_single dword d
    (Repr.fromDword qr.1, Repr.fromWord qr.2)
  | .small dword, .double d =>
    let qr := div_rem_small_double dword d
    (Repr.fromWord qr.1, Repr.fromDword qr.2)
  | .small dword, .large _ => (Repr.zero, Repr.fromDword dword)
  | .large buffer, .single d =>
    let t := fast_div_by_word_in_place buffer d.shift d.fast_div
    (Repr.fromBuffer t.1, Repr.fromWord t.2)
  | .large buffer, .double d =>
    let t := fast_div_by_dword_in_place buffer d.shift d.fast_div
    (Repr.fromBuffer t.1, Repr.fromDword t.2)
  | .large buffer, .large d =>
    let div_len := d.normalized_modulus.length
    if buffer.length < div_len then (Repr.zero, Repr.fromBuffer buffer)
    else
      let t := div_rem_unshifted_in_place buffer d.normalized_modulus d.shift
      let q := (t.1.drop div_len : List Nat) ++ [t.2]
      let buffer := (t.1.take div_len : List Nat)
      (Repr.fromBuffer q, Repr.fromBuffer (shr_in_place buffer d.shift).1)

end Dashu

namespace Dashu

theorem dword_decomp (v : Nat) :
    v % WB + WB * (v / WB % WB) + WB * WB * (v / (WB * WB)) = v := by
  have h1 : v % WB + WB * (v / WB % WB) = v % (WB * WB) := by
    rw [Nat.mod_mul]
  have h2 : v % (WB * WB) + WB * WB * (v / (WB * WB)) = v :=
    Nat.mod_add_div v (WB * WB)
  omega

/-- The two half-steps of schoolbook division of a three-word value by a
divisor compute the true quotient and remainder. -/
theorem threeStep_div {d v : Nat} (hd : d ≠ 0) :
    (v % WB + WB * ((v / WB % WB + WB * (v / (WB * WB))) % d)) / d
        + WB * ((v / WB % WB + WB * (v / (WB * WB))) / d) = v / d ∧
    (v % WB + WB * ((v / WB % WB + WB * (v / (WB * WB))) % d)) % d
        = v % d := by
  set n0 := v % WB with hn0
  set n1 := v / WB % WB with hn1
  set n2 := v / (WB * WB) with hn2
  set q1 := (n1 + WB * n2) / d with hq1
  set r1 := (n1 + WB * n2) % d with hr1
  set q0 := (n0 + WB * r1) / d with hq0
  set r0 := (n0 + WB * r1) % d with hr0
  have hdec : n0 + WB * n1 + WB * WB * n2 = v := dword_decomp v
  have e1 : d * q1 + r1 = n1 + WB * n2 := Nat.div_add_mod _ d
  have e2 : d * q0 + r0 = n0 + WB * r1 := Nat.div_add_mod _ d
  have hv' : r0 + d * (q0 + WB * q1) = v := by
    have s1 : r0 + d * (q0 + WB * q1) = (d * q0 + r0) + WB * (d * q1) := by
      ring
    rw [s1, e2]
    have s2 : n0 + WB * r1 + WB * (d * q1) = n0 + WB * (d * q1 + r1) := by
      ring
    rw [s2, e1]
    have s3 : n0 + WB * (n1 + WB * n2) = n0 + WB * n1 + WB * WB * n2 := by
      ring
    rw [s3, hdec]
  have huniq := (Nat.div_mod_unique (Nat.pos_of_ne_zero hd)).mpr
    ⟨hv', Nat.mod_lt _ (Nat.pos_of_ne_zero hd)⟩
  exact ⟨huniq.1.symm, huniq.2.symm⟩

end Dashu

namespace Dashu

theorem single_new_divisor (w : Nat) : (ConstSingleDivisor.new w).divisor = w := by
  simp only [ConstSingleDivisor.new, ConstSingleDivisor.divisor,
    FastDivideNormalized.new]
  exact Nat.mul_div_cancel w (Nat.pos_pow_of_pos _ (by norm_num))

theorem div_rem_small_single_eq (w dw : Nat) (hw : w ≠ 0) :
    div_rem_small_single dw (ConstSingleDivisor.new w)
      = ((dw * 2 ^ leadingZeros64 w) / (w * 2 ^ leadingZeros64 w),
         ((dw * 2 ^ leadingZeros64 w) % (w * 2 ^ leadingZeros64 w))
           / 2 ^ leadingZeros64 w) := by
  have ts := threeStep_div (d := w * 2 ^ leadingZeros64 w)
    (v := dw * 2 ^ leadingZeros64 w) (Nat.mul_ne_zero hw (by positivity))
  simp only [div_rem_small_single, shl_dword, FastDivideNormalized.divRem,
    double_word, ConstSingleDivisor.new, FastDivideNormalized.new]
  rw [Prod.mk.injEq]
  exact ⟨ts.1, by rw [ts.2]⟩

end Dashu

namespace Dashu

theorem div_rem_small_single_spec (w dw : Nat) (hw : w ≠ 0) :
    div_rem_small_single dw (ConstSingleDivisor.new w)
      = (dw / w, dw % w) := by
  have h2s : (0 : Nat) < 2 ^ leadingZeros64 w := by positivity
  rw [div_rem_small_single_eq w dw hw, Nat.mul_div_mul_right _ _ h2s,
    Nat.mul_mod_mul_right, Nat.mul_div_cancel _ h2s]

theorem single_remDword_spec (w dw : Nat) (hw : w ≠ 0) :
    (ConstSingleDivisor.new w).remDword dw
      = dw % w * 2 ^ (ConstSingleDivisor.new w).shift := by
  have ts := threeStep_div (d := w * 2 ^ leadingZeros64 w)
    (v := dw * 2 ^ leadingZeros64 w) (Nat.mul_ne_zero hw (by positivity))
  by_cases hsz : leadingZeros64 w = 0
  · simp only [ConstSingleDivisor.remDword, ConstSingleDivisor.new,
      FastDivideNormalized.new, FastDivideNormalized.divRem, hsz, if_pos,
      pow_zero, Nat.mul_one]
  · simp only [ConstSingleDivisor.remDword, ConstSingleDivisor.new,
      FastDivideNormalized.new, FastDivideNormalized.divRem, shl_dword,
      double_word, if_neg hsz]
    rw [ts.2, Nat.mul_mod_mul_right]

theorem single_remLarge_spec (w : Nat) (_hw : w ≠ 0) (ws : List Nat) :
    (ConstSingleDivisor.new w).remLarge ws
      = wordsVal ws % w * 2 ^ (ConstSingleDivisor.new w).shift := by
  by_cases hsz : leadingZeros64 w = 0
  · simp only [ConstSingleDivisor.remLarge, ConstSingleDivisor.new,
      FastDivideNormalized.new, fast_rem_by_normalized_word,
      FastDivideNormalized.divRem, hsz, if_neg, pow_zero, Nat.mul_one,
      ne_eq, not_true_eq_false, if_false]
  · simp only [ConstSingleDivisor.remLarge, ConstSingleDivisor.new,
      FastDivideNormalized.new, fast_rem_by_normalized_word,
      FastDivideNormalized.divRem, ne_eq, hsz, not_false_eq_true, if_true]
    rw [Nat.mul_mod_mul_right,
      Nat.mod_mod_of_dvd (wordsVal ws) ⟨2 ^ leadingZeros64 w, rfl⟩]

theorem double_new_divisor (n : Nat) :
    (ConstDoubleDivisor.new n).divisor = n := by
  simp only [ConstDoubleDivisor.new, ConstDoubleDivisor.divisor,
    FastDivideNormalized2.new]
  exact Nat.mul_div_cancel n (Nat.pos_pow_of_pos _ (by norm_num))

theorem double_divRem_decomp (fd : FastDivideNormalized2) (v : Nat) :
    fd.divRem (v % WB) (double_word (v / WB % WB) (v / (WB * WB)))
      = (v / fd.divisor, v % fd.divisor) := by
  simp only [FastDivideNormalized2.divRem, double_word]
  have harg : (v / WB % WB + WB * (v / (WB * WB))) * WB + v % WB = v := by
    calc (v / WB % WB + WB * (v / (WB * WB))) * WB + v % WB
        = v % WB + WB * (v / WB % WB) + WB * WB * (v / (WB * WB)) := by ring
    _ = v := dword_decomp v
  rw [harg]

theorem div_rem_small_double_spec (n dw : Nat) (_hn : n ≠ 0) :
    div_rem_small_double dw (ConstDoubleDivisor.new n)
      = (dw / n, dw % n) := by
  have h2s : (0 : Nat) < 2 ^ leadingZeros128 n := by positivity
  simp only [div_rem_small_double, shl_dword, ConstDoubleDivisor.new,
    FastDivideNormalized2.new]
  rw [double_divRem_decomp ⟨n * 2 ^ leadingZeros128 n⟩
    (dw * 2 ^ leadingZeros128 n)]
  rw [Prod.mk.injEq]
  constructor
  · exact Nat.mul_div_mul_right _ _ h2s
  · rw [Nat.mul_mod_mul_right, Nat.mul_div_cancel _ h2s]

theorem double_remDword_spec (n dw : Nat) (_hn : n ≠ 0) :
    (ConstDoubleDivisor.new n).remDword dw
      = dw % n * 2 ^ (ConstDoubleDivisor.new n).shift := by
  by_cases hsz : leadingZeros128 n = 0
  · simp only [ConstDoubleDivisor.remDword, ConstDoubleDivisor.new,
      FastDivideNormalized2.new, FastDivideNormalized2.divRemDword, hsz,
      if_pos, pow_zero, Nat.mul_one]
  · simp only [ConstDoubleDivisor.remDword, ConstDoubleDivisor.new,
      FastDivideNormalized2.new, shl_dword, if_neg hsz]
    rw [double_divRem_decomp ⟨n * 2 ^ leadingZeros128 n⟩
      (dw * 2 ^ leadingZeros128 n)]
    rw [Nat.mul_mod_mul_right]

theorem double_remLarge_spec (n : Nat) (_hn : n ≠ 0) (ws : List Nat) :
    (ConstDoubleDivisor.new n).remLarge ws
      = wordsVal ws % n * 2 ^ (ConstDoubleDivisor.new n).shift := by
  by_cases hsz : leadingZeros128 n = 0
  · simp only [ConstDoubleDivisor.remLarge, ConstDoubleDivisor.new,
      FastDivideNormalized2.new, fast_rem_by_normalized_dword, ne_eq, hsz,
      not_true_eq_false, if_false, pow_zero, Nat.mul_one]
  · simp only [ConstDoubleDivisor.remLarge, ConstDoubleDivisor.new,
      FastDivideNormalized2.new, fast_rem_by_normalized_dword, shl_dword,
      ne_eq, hsz, not_false_eq_true, if_true]
    rw [double_divRem_decomp ⟨n * 2 ^ leadingZeros128 n⟩
      (wordsVal ws % (n * 2 ^ leadingZeros128 n) * 2 ^ leadingZeros128 n)]
    rw [Nat.mul_mod_mul_right,
      Nat.mod_mod_of_dvd (wordsVal ws) ⟨2 ^ leadingZeros128 n, rfl⟩]

end Dashu

namespace Dashu

theorem wordsVal_append (xs ys : List Nat) :
    wordsVal (xs ++ ys) = wordsVal xs + WB ^ xs.length * wordsVal ys := by
  induction xs with
  | nil => simp [wordsVal]
  | cons x rest ih =>
    show x + WB * wordsVal (rest ++ ys) = _
    rw [ih, List.length_cons, pow_succ]
    simp only [wordsVal]
    ring

theorem lt_two_pow_bitLen {n : Nat} (hn : n ≠ 0) : n < 2 ^ bitLen n := by
  rw [bitLen, if_neg hn]
  exact (Nat.log2_lt hn).mp (Nat.lt_succ_self _)

theorem bitLen_le_of_lt {n k : Nat} (h : n < 2 ^ k) : bitLen n ≤ k := by
  by_cases hn : n = 0
  · simp [bitLen, hn]
  · rw [bitLen, if_neg hn]
    exact (Nat.log2_lt hn).mpr h

/-- Properties of `ConstLargeDivisor::new` on a well-formed heap operand:
the stored normalized modulus has the same length, holds exactly the
shifted value, and unshifts back to the original divisor. -/
theorem CLD_new_spec (ws : List Nat) (hwf : Repr.wfLarge ws) :
    (ConstLargeDivisor.new ws).normalized_modulus.length = ws.length ∧
    wordsVal (ConstLargeDivisor.new ws).normalized_modulus
      = wordsVal ws * 2 ^ (ConstLargeDivisor.new ws).shift ∧
    (ConstLargeDivisor.new ws).divisorVal = wordsVal ws := by
  obtain ⟨hlen, hbound, hlast⟩ := hwf
  have hne : ws ≠ [] := by intro hc; rw [hc] at hlen; simp at hlen
  set top := ws.getLast hne with htopdef
  have htop? : ws.getLast? = some top := List.getLast?_eq_getLast ws hne
  have htopne : top ≠ 0 := by
    intro hc; rw [htop?, hc] at hlast; exact hlast rfl
  have htoplt : top < WB := hbound top (List.getLast_mem hne)
  set s := leadingZeros64 ((ws : List Nat).getLast?.getD 0) with hsdef
  have hs : s = 64 - bitLen top := by rw [hsdef, htop?]; rfl
  -- the shifted value still fits in `ws.length` words
  have hsplit : ws.dropLast ++ [top] = ws := List.dropLast_append_getLast hne
  have hvtop : wordsVal ws = wordsVal ws.dropLast
      + WB ^ (ws.length - 1) * top := by
    conv_lhs => rw [← hsplit]
    rw [wordsVal_append, List.length_dropLast]
    simp [wordsVal]
  have hdrop : wordsVal ws.dropLast < WB ^ (ws.length - 1) := by
    have := wordsVal_lt ws.dropLast
      (fun x hx => hbound x (List.dropLast_subset ws hx))
    rwa [List.length_dropLast] at this
  have hbt : bitLen top ≤ 64 := bitLen_le_of_lt htoplt
  have hfit : wordsVal ws * 2 ^ s < WB ^ ws.length := by
    have h1 : wordsVal ws < WB ^ (ws.length - 1) * 2 ^ bitLen top := by
      have h2 : top + 1 ≤ 2 ^ bitLen top := lt_two_pow_bitLen htopne
      calc wordsVal ws = wordsVal ws.dropLast + WB ^ (ws.length - 1) * top :=
            hvtop
      _ < WB ^ (ws.length - 1) * (top + 1) := by
            have := Nat.mul_le_mul_left (WB ^ (ws.length - 1)) h2
            nlinarith [hdrop]
      _ ≤ WB ^ (ws.length - 1) * 2 ^ bitLen top :=
            Nat.mul_le_mul_left _ h2
    calc wordsVal ws * 2 ^ s
        < WB ^ (ws.length - 1) * 2 ^ bitLen top * 2 ^ s :=
          Nat.mul_lt_mul_of_lt_of_le h1 (le_refl _) (by positivity)
    _ = WB ^ (ws.length - 1) * 2 ^ (bitLen top + s) := by
          rw [mul_assoc, ← pow_add]
    _ = WB ^ (ws.length - 1) * WB := by
          have : bitLen top + s = 64 := by rw [hs]; omega
          rw [this]; rfl
    _ = WB ^ ws.length := by
          rw [← pow_succ]
          congr 1
          omega
  refine ⟨?_, ?_, ?_⟩
  · simp only [ConstLargeDivisor.new, divNormalize]
    rw [← hsdef]
    exact wordsOf_length _ _
  · simp only [ConstLargeDivisor.new, divNormalize]
    rw [← hsdef, wordsVal_wordsOf, Nat.mod_eq_of_lt hfit]
  · simp only [ConstLargeDivisor.new, divNormalize, ConstLargeDivisor.divisorVal]
    rw [← hsdef, wordsVal_wordsOf, Nat.mod_eq_of_lt hfit,
      Nat.mul_div_cancel _ (by positivity)]

end Dashu

namespace Dashu

theorem euclid_pair (a d : Nat) (hd : d ≠ 0) :
    a / d * d + a % d = a ∧ a % d < d :=
  ⟨by rw [mul_comm]; exact Nat.div_add_mod a d,
   Nat.mod_lt a (Nat.pos_of_ne_zero hd)⟩

theorem fromWord_val (w : Nat) : (Repr.fromWord w).val = w := rfl

theorem fromDword_val (dw : Nat) : (Repr.fromDword dw).val = dw := rfl

theorem zero_val : Repr.zero.val = 0 := rfl

theorem val_small (dw : Nat) : (Repr.small dw).val = dw := rfl

theorem val_large (ws : List Nat) : (Repr.large ws).val = wordsVal ws := rfl

/-- Core specification of division by a `ConstDivisor`, shared by the
unsigned (C1) and signed (C10) claims. -/
theorem constDiv_spec (a n : Repr) (ha : a.wf) (hn : n.wf)
    (hnz : n.val ≠ 0) :
    ∃ dv : ConstDivisorRepr, ConstDivisor.new n = .ok dv ∧
      dv.val = n.val ∧
      (reprDivRemC a dv).1.val * n.val + (reprDivRemC a dv).2.val = a.val ∧
      (reprDivRemC a dv).2.val < n.val ∧
      reprDivC a dv = (reprDivRemC a dv).1 ∧
      reprRemC a dv = (reprDivRemC a dv).2 := by
  cases n with
  | small dwn =>
    have hdn : dwn ≠ 0 := hnz
    by_cases hw : dwn < WB
    · -- single-word divisor
      refine ⟨.single (ConstSingleDivisor.new dwn), ?_, ?_, ?_⟩
      · simp [ConstDivisor.new, hdn, shrink_dword, hw]
      · simpa [ConstDivisorRepr.val, Repr.val] using single_new_divisor dwn
      cases a with
      | small dwa =>
        have hdr := div_rem_small_single_spec dwn dwa hdn
        have hrem := single_remDword_spec dwn dwa hdn
        have h2s : (0 : Nat) < 2 ^ (ConstSingleDivisor.new dwn).shift := by
          positivity
        refine ⟨?_, ?_, ?_, ?_⟩
        · simp only [reprDivRemC, hdr, Repr.fromDword, Repr.fromWord,
            Repr.val]
          exact (euclid_pair dwa dwn hdn).1
        · simp only [reprDivRemC, hdr, Repr.fromWord, Repr.val]
          exact (euclid_pair dwa dwn hdn).2
        · simp only [reprDivC, reprDivRemC, hdr]
        · simp only [reprRemC, reprDivRemC, hdr, hrem,
            Nat.mul_div_cancel _ h2s]
      | large ws =>
        have hav := wordsVal_lt ws ha.2.1
        have hrem := single_remLarge_spec dwn hdn ws
        have h2s : (0 : Nat) < 2 ^ (ConstSingleDivisor.new dwn).shift := by
          positivity
        have hdw : (ConstSingleDivisor.new dwn).fast_div.divisor
            / 2 ^ (ConstSingleDivisor.new dwn).shift = dwn :=
          single_new_divisor dwn
        refine ⟨?_, ?_, ?_, ?_⟩
        · simp only [reprDivRemC, fast_div_by_word_in_place, hdw,
            fromWord_val, fromBuffer_val, wordsVal_wordsOf,
            ConstDivisorRepr.val, single_new_divisor]
          rw [Nat.mod_eq_of_lt
            (lt_of_le_of_lt (Nat.div_le_self _ _) hav)]
          exact (euclid_pair (wordsVal ws) dwn hdn).1
        · simp only [reprDivRemC, fast_div_by_word_in_place, hdw,
            fromWord_val, ConstDivisorRepr.val, single_new_divisor]
          exact (euclid_pair (wordsVal ws) dwn hdn).2
        · simp only [reprDivC, reprDivRemC]
        · simp only [reprRemC, reprDivRemC, fast_div_by_word_in_place, hdw,
            hrem, Nat.mul_div_cancel _ h2s]
    · -- double-word divisor
      have hge : ¬ dwn < WB := hw
      refine ⟨.double (ConstDoubleDivisor.new dwn), ?_, ?_, ?_⟩
      · simp [ConstDivisor.new, hdn, shrink_dword, hge]
      · simpa [ConstDivisorRepr.val, Repr.val] using double_new_divisor dwn
      cases a with
      | small dwa =>
        have hdr := div_rem_small_double_spec dwn dwa hdn
        have hrem := double_remDword_spec dwn dwa hdn
        have h2s : (0 : Nat) < 2 ^ (ConstDoubleDivisor.new dwn).shift := by
          positivity
        refine ⟨?_, ?_, ?_, ?_⟩
        · simp only [reprDivRemC, hdr, Repr.fromDword, Repr.fromWord,
            Repr.val]
          exact (euclid_pair dwa dwn hdn).1
        · simp only [reprDivRemC, hdr, Repr.fromDword, Repr.val]
          exact (euclid_pair dwa dwn hdn).2
        · simp only [reprDivC, reprDivRemC, hdr]
        · simp only [reprRemC, reprDivRemC, hdr, hrem,
            Nat.mul_div_cancel _ h2s]
      | large ws =>
        have hav := wordsVal_lt ws ha.2.1
        have hrem := double_remLarge_spec dwn hdn ws
        have h2s : (0 : Nat) < 2 ^ (ConstDoubleDivisor.new dwn).shift := by
          positivity
        have hdw : (ConstDoubleDivisor.new dwn).fast_div.divisor
            / 2 ^ (ConstDoubleDivisor.new dwn).shift = dwn :=
          double_new_divisor dwn
        refine ⟨?_, ?_, ?_, ?_⟩
        · simp only [reprDivRemC, fast_div_by_dword_in_place, hdw,
            fromDword_val, fromBuffer_val, wordsVal_wordsOf,
            ConstDivisorRepr.val, double_new_divisor]
          rw [Nat.mod_eq_of_lt
            (lt_of_le_of_lt (Nat.div_le_self _ _) hav)]
          exact (euclid_pair (wordsVal ws) dwn hdn).1
        · simp only [reprDivRemC, fast_div_by_dword_in_place, hdw,
            fromDword_val, ConstDivisorRepr.val, double_new_divisor]
          exact (euclid_pair (wordsVal ws) dwn hdn).2
        · simp only [reprDivC, reprDivRemC]
        · simp only [reprRemC, reprDivRemC, fast_div_by_dword_in_place, hdw,
            hrem, Nat.mul_div_cancel _ h2s]
  | large ws =>
    obtain ⟨hlen', hD, hval⟩ := CLD_new_spec ws hn
    have hlow : DWB ≤ wordsVal ws := wfLarge_val_lower hn
    have hlastlow : WB ^ (ws.length - 1) ≤ wordsVal ws :=
      wordsVal_ge_of_last_ne_zero ws
        (by intro hc; rw [hc] at hn; exact absurd hn.1 (by simp)) hn.2.2
    set M := ConstLargeDivisor.new ws with hMdef
    have hnM : wordsVal M.normalized_modulus / 2 ^ M.shift = wordsVal ws := by
      rw [hD, Nat.mul_div_cancel _ (by positivity)]
    refine ⟨.large M, rfl, hval, ?_⟩
    cases a with
    | small dwa =>
      have hlt : dwa < wordsVal ws := by
        have : dwa < DWB := ha
        omega
      refine ⟨?_, ?_, ?_, ?_⟩
      · simp only [reprDivRemC, zero_val, fromDword_val, val_small,
          val_large, ConstDivisorRepr.val, hval]
        omega
      · simp only [reprDivRemC, fromDword_val, val_small, val_large,
          ConstDivisorRepr.val, hval]
        exact hlt
      · simp only [reprDivC, reprDivRemC]
      · simp only [reprRemC, reprDivRemC]
    | large wsa =>
      have hav := wordsVal_lt wsa ha.2.1
      by_cases hshort : wsa.length < M.normalized_modulus.length
      · have hlt : wordsVal wsa < wordsVal ws := by
          have h1 : WB ^ wsa.length ≤ WB ^ (ws.length - 1) :=
            Nat.pow_le_pow_right (by decide) (by omega)
          omega
        refine ⟨?_, ?_, ?_, ?_⟩
        · simp only [reprDivRemC, if_pos hshort, zero_val, fromBuffer_val,
            ConstDivisorRepr.val, hval, val_large]
          omega
        · simp only [reprDivRemC, if_pos hshort, fromBuffer_val,
            ConstDivisorRepr.val, hval, val_large]
          exact hlt
        · simp only [reprDivC, reprDivRemC, if_pos hshort]
        · simp only [reprRemC, reprDivRemC, rem_large_large, if_pos hshort,
            if_neg (by omega : ¬ wsa.length ≥ M.normalized_modulus.length)]
      · have hge : wsa.length ≥ M.normalized_modulus.length := by omega
        have hwsnz : wordsVal ws ≠ 0 := hnz
        have hq := (euclid_pair (wordsVal wsa) (wordsVal ws) hwsnz).1
        have hr := (euclid_pair (wordsVal wsa) (wordsVal ws) hwsnz).2
        set q := wordsVal wsa / wordsVal ws with hqdef
        set r := wordsVal wsa % wordsVal ws with hrdef
        have hrs : r * 2 ^ M.shift < WB ^ M.normalized_modulus.length := by
          have h1 : r * 2 ^ M.shift < wordsVal ws * 2 ^ M.shift := by
            have := Nat.mul_lt_mul_of_lt_of_le hr
              (le_refl (2 ^ M.shift)) (by positivity)
            exact this
          have h2 : wordsVal ws * 2 ^ M.shift
              < WB ^ M.normalized_modulus.length := by
            rw [← hD]
            exact wordsVal_lt M.normalized_modulus (by
              intro w hwmem
              have := wordsOf_mem_lt (wordsVal ws
                * 2 ^ leadingZeros64 ((ws : List Nat).getLast?.getD 0))
                ws.length
              exact this w hwmem)
          omega
        have hkey : div_rem_unshifted_in_place wsa M.normalized_modulus
            M.shift = (wordsOf (r * 2 ^ M.shift) M.normalized_modulus.length
              ++ wordsOf q (wsa.length - M.normalized_modulus.length),
             q / WB ^ (wsa.length - M.normalized_modulus.length)) := by
          simp only [div_rem_unshifted_in_place, hnM, hqdef, hrdef]
        have hdroplen : (wordsOf (r * 2 ^ M.shift)
            M.normalized_modulus.length).length
            = M.normalized_modulus.length := wordsOf_length _ _
        have hqval : wordsVal ((wordsOf q
              (wsa.length - M.normalized_modulus.length))
            ++ [q / WB ^ (wsa.length - M.normalized_modulus.length)]) = q := by
          rw [wordsVal_append, wordsOf_length, wordsVal_wordsOf]
          simp [wordsVal]
          exact Nat.mod_add_div q _
        have hrval : wordsVal ((shr_in_place
            (wordsOf (r * 2 ^ M.shift) M.normalized_modulus.length)
            M.shift).1) = r := by
          simp only [shr_in_place, wordsVal_wordsOf, wordsOf_length]
          rw [Nat.mod_eq_of_lt hrs, Nat.mul_div_cancel _ (by positivity)]
          rw [Nat.mod_eq_of_lt]
          calc r ≤ r * 2 ^ M.shift := Nat.le_mul_of_pos_right r (by positivity)
          _ < WB ^ M.normalized_modulus.length := hrs
        refine ⟨?_, ?_, ?_, ?_⟩
        · simp only [reprDivRemC, if_neg (by omega :
            ¬ wsa.length < M.normalized_modulus.length), hkey]
          rw [List.drop_left' hdroplen, List.take_left' hdroplen]
          simp only [val_large, fromBuffer_val, ConstDivisorRepr.val, hval,
            hqval, hrval]
          exact hq
        · simp only [reprDivRemC, if_neg (by omega :
            ¬ wsa.length < M.normalized_modulus.length), hkey]
          rw [List.take_left' hdroplen]
          simp only [val_large, fromBuffer_val, ConstDivisorRepr.val, hval,
            hrval]
          exact hr
        · simp only [reprDivC, reprDivRemC, if_neg (by omega :
            ¬ wsa.length < M.normalized_modulus.length)]
        · simp only [reprRemC, reprDivRemC, rem_large_large,
            if_neg (by omega : ¬ wsa.length < M.normalized_modulus.length),
            if_pos hge]

end Dashu

namespace Dashu

/-- Claim C1: for well-formed `UBig` operands `a` and nonzero `n`,
`ConstDivisor::new(n)` succeeds and represents the divisor `n`, and the
`DivRem` implementation against it returns `(q, r)` with
`a == q*n + r` and `r < n`; the separately computed `Div` quotient and
`Rem` remainder equal this `q` and `r` respectively. -/
theorem C1_const_divisor_euclidean (a n : Repr) (ha : a.wf) (hn : n.wf)
    (hnz : n.val ≠ 0) :
    ∃ dv : ConstDivisorRepr, ConstDivisor.new n = .ok dv ∧
      dv.val = n.val ∧
      (reprDivRemC a dv).1.val * n.val + (reprDivRemC a dv).2.val = a.val ∧
      (reprDivRemC a dv).2.val < n.val ∧
      reprDivC a dv = (reprDivRemC a dv).1 ∧
      reprRemC a dv = (reprDivRemC a dv).2 :=
  constDiv_spec a n ha hn hnz

/-- Witness for C1 at `a = 7`, `n = 3`. -/
theorem C1_witness :
    ((Repr.small 7).wf ∧ (Repr.small 3).wf ∧ (Repr.small 3).val ≠ 0) ∧
    (∃ dv : ConstDivisorRepr, ConstDivisor.new (.small 3) = .ok dv ∧
      dv.val = (Repr.small 3).val ∧
      (reprDivRemC (.small 7) dv).1.val * (Repr.small 3).val
        + (reprDivRemC (.small 7) dv).2.val = (Repr.small 7).val ∧
      (reprDivRemC (.small 7) dv).2.val < (Repr.small 3).val ∧
      reprDivC (.small 7) dv = (reprDivRemC (.small 7) dv).1 ∧
      reprRemC (.small 7) dv = (reprDivRemC (.small 7) dv).2) :=
  ⟨⟨by decide, by decide, by decide⟩,
   C1_const_divisor_euclidean (.small 7) (.small 3)
     (by decide) (by decide) (by decide)⟩

/-! ### dashu-int: IBig against a constant divisor (claim C10) -/

/-- Modelled from the spec: `Repr::with_sign` (in the missing part of the
repr module) attaches a sign to a magnitude while keeping zero positive
(§4.1 "must preserve the zero-is-positive invariant").  The result is the
`(sign, magnitude)` view of a signed `Repr`. -/
def Repr.withSign (r : Repr) (s : Sign) : Sign × Repr :=
  (if r.val = 0 then Sign.positive else s, r)

/-- Value of a signed `Repr` in its `(sign, magnitude)` view (an `IBig`
after `into_sign_repr`). -/
def IBig.val (x : Sign × Repr) : Int := x.1.apply x.2.val

/-- `impl Div<&ConstDivisor> for IBig` (const_div.rs): split into sign
and magnitude, divide the magnitude, reapply the sign. -/
def ibigDivC (x : Sign × Repr) (rhs : ConstDivisorRepr) : Sign × Repr :=
  (reprDivC x.2 rhs).withSign x.1

/-- `impl Rem<&ConstDivisor> for IBig` (const_div.rs). -/
def ibigRemC (x : Sign × Repr) (rhs : ConstDivisorRepr) : Sign × Repr :=
  (reprRemC x.2 rhs).withSign x.1

/-- `impl DivRem<&ConstDivisor> for IBig` (const_div.rs). -/
def ibigDivRemC (x : Sign × Repr) (rhs : ConstDivisorRepr) :
    (Sign × Repr) × (Sign × Repr) :=
  let qr := reprDivRemC x.2 rhs
  (qr.1.withSign x.1, qr.2.withSign x.1)

theorem sign_apply_zero (s : Sign) : s.apply 0 = 0 := by
  cases s <;> rfl

theorem IBig_val_withSign (r : Repr) (s : Sign) :
    IBig.val (r.withSign s) = s.apply r.val := by
  by_cases h : r.val = 0
  · simp [Repr.withSign, IBig.val, h, sign_apply_zero]
  · simp [Repr.withSign, IBig.val, h]

theorem sign_apply_natAbs (s : Sign) (k : Nat) :
    (s.apply k).natAbs = k := by
  cases s <;> simp [Sign.apply]

/-- Claim C10: division of an `IBig` by a `ConstDivisor` follows
truncated (round-toward-zero) semantics: the quotient is
`sign(x)·(|x| div n)`, the remainder `sign(x)·(|x| mod n)`, `div_rem`
returns that same pair, and `x = q·n + r` with `|r| < n` and `r` zero or
carrying the sign of `x`. -/
theorem C10_ibig_const_divisor_truncated (s : Sign) (mag n : Repr)
    (ha : mag.wf) (hn : n.wf) (hnz : n.val ≠ 0) :
    ∃ dv : ConstDivisorRepr, ConstDivisor.new n = .ok dv ∧
      IBig.val (ibigDivC (s, mag) dv) = s.apply (mag.val / n.val) ∧
      IBig.val (ibigRemC (s, mag) dv) = s.apply (mag.val % n.val) ∧
      ibigDivRemC (s, mag) dv = (ibigDivC (s, mag) dv, ibigRemC (s, mag) dv) ∧
      IBig.val (s, mag)
        = IBig.val (ibigDivC (s, mag) dv) * (n.val : Int)
          + IBig.val (ibigRemC (s, mag) dv) ∧
      (IBig.val (ibigRemC (s, mag) dv)).natAbs < n.val ∧
      (IBig.val (ibigRemC (s, mag) dv) = 0 ∨
        (IBig.val (ibigRemC (s, mag) dv)).sign
          = (IBig.val (s, mag)).sign) := by
  obtain ⟨dv, hnew, hdvval, heu, hlt, hdiv, hrem⟩ :=
    constDiv_spec mag n ha hn hnz
  have hcomm : (reprDivRemC mag dv).2.val
      + n.val * (reprDivRemC mag dv).1.val = mag.val := by
    rw [Nat.mul_comm]
    omega
  have huniq : mag.val / n.val = (reprDivRemC mag dv).1.val ∧
      mag.val % n.val = (reprDivRemC mag dv).2.val :=
    (Nat.div_mod_unique (Nat.pos_of_ne_zero hnz)).mpr ⟨hcomm, hlt⟩
  have hqv : (reprDivRemC mag dv).1.val = mag.val / n.val := huniq.1.symm
  have hrv : (reprDivRemC mag dv).2.val = mag.val % n.val := huniq.2.symm
  have hdval : IBig.val (ibigDivC (s, mag) dv) = s.apply (mag.val / n.val) := by
    rw [ibigDivC, IBig_val_withSign]
    show s.apply (reprDivC mag dv).val = _
    rw [hdiv, hqv]
  have hrval : IBig.val (ibigRemC (s, mag) dv) = s.apply (mag.val % n.val) := by
    rw [ibigRemC, IBig_val_withSign]
    show s.apply (reprRemC mag dv).val = _
    rw [hrem, hrv]
  refine ⟨dv, hnew, hdval, hrval, ?_, ?_, ?_, ?_⟩
  · simp only [ibigDivRemC, ibigDivC, ibigRemC, hdiv, hrem]
  · rw [hdval, hrval]
    have hsplit : mag.val = mag.val / n.val * n.val + mag.val % n.val := by
      rw [Nat.mul_comm]
      exact (Nat.div_add_mod mag.val n.val).symm
    cases s with
    | positive =>
      simp only [IBig.val, Sign.apply]
      push_cast
      exact_mod_cast congrArg (Nat.cast : Nat → Int) hsplit
    | negative =>
      simp only [IBig.val, Sign.apply]
      push_cast
      have := congrArg (Nat.cast : Nat → Int) hsplit
      push_cast at this
      linarith
  · rw [hrval, sign_apply_natAbs]
    exact Nat.mod_lt mag.val (Nat.pos_of_ne_zero hnz)
  · rw [hrval]
    by_cases hz : mag.val % n.val = 0
    · left; rw [hz, sign_apply_zero]
    · right
      have hmagnz : mag.val ≠ 0 := by
        intro hc
        rw [hc, Nat.zero_mod] at hz
        exact hz rfl
      cases s with
      | positive =>
        simp only [IBig.val, Sign.apply]
        rw [Int.sign_natCast_of_ne_zero hz, Int.sign_natCast_of_ne_zero hmagnz]
      | negative =>
        simp only [IBig.val, Sign.apply]
        rw [Int.sign_neg, Int.sign_neg,
          Int.sign_natCast_of_ne_zero hz, Int.sign_natCast_of_ne_zero hmagnz]

/-- Witness for C10 at `x = -7`, `n = 3`. -/
theorem C10_witness :
    ((Repr.small 7).wf ∧ (Repr.small 3).wf ∧ (Repr.small 3).val ≠ 0) ∧
    (∃ dv : ConstDivisorRepr, ConstDivisor.new (.small 3) = .ok dv ∧
      IBig.val (ibigDivC (.negative, .small 7) dv)
        = Sign.negative.apply ((Repr.small 7).val / (Repr.small 3).val) ∧
      IBig.val (ibigRemC (.negative, .small 7) dv)
        = Sign.negative.apply ((Repr.small 7).val % (Repr.small 3).val) ∧
      ibigDivRemC (.negative, .small 7) dv
        = (ibigDivC (.negative, .small 7) dv,
           ibigRemC (.negative, .small 7) dv) ∧
      IBig.val (.negative, .small 7)
        = IBig.val (ibigDivC (.negative, .small 7) dv)
            * ((Repr.small 3).val : Int)
          + IBig.val (ibigRemC (.negative, .small 7) dv) ∧
      (IBig.val (ibigRemC (.negative, .small 7) dv)).natAbs
        < (Repr.small 3).val ∧
      (IBig.val (ibigRemC (.negative, .small 7) dv) = 0 ∨
        (IBig.val (ibigRemC (.negative, .small 7) dv)).sign
          = (IBig.val (.negative, .small 7)).sign)) :=
  ⟨⟨by decide, by decide, by decide⟩,
   C10_ibig_const_divisor_truncated .negative (.small 7) (.small 3)
     (by decide) (by decide) (by decide)⟩

end Dashu

namespace Dashu

/-! ### dashu-int: gcd and extended gcd (claim C5, gcd_ops.rs) -/

/-- Modelled from the spec: `Gcd::gcd` on double words (the base
`ring/gcd.rs` is missing); panics when both operands are zero. -/
def dwordGcd (a b : Nat) : Except Panic Nat :=
  if a = 0 ∧ b = 0 then .error .assertFail else .ok (Nat.gcd a b)

/-- Modelled from the spec: `ExtendedGcd::gcd_ext` on double words returns
`(g, s, t)` with the Bézout identity `s·a + t·b = g` (§8 item 6: "the law
is the invariant, not the particular coefficients"); panics when both
operands are zero. -/
def dwordGcdExt (a b : Nat) : Except Panic (Nat × Int × Int) :=
  if a = 0 ∧ b = 0 then .error .assertFail
  else .ok (Nat.gcd a b, Nat.gcdA a b, Nat.gcdB a b)

/-- Modelled from the spec: `div::rem_by_dword(words, d)` (§4.2, the `div`
module is missing): remainder of the buffer value by a nonzero double
word. -/
def rem_by_dword (words : List Nat) (d : Nat) : Nat := wordsVal words % d

/-- Modelled from the spec: `div::div_by_dword_in_place(buffer, d)` (§4.2):
the buffer is overwritten by the quotient words and the remainder is
returned. -/
def div_by_dword_in_place (buffer : Buffer) (d : Nat) : Buffer × Nat :=
  (wordsOf (wordsVal buffer / d) buffer.length, wordsVal buffer % d)

/-- Number of little-endian words needed to store a value (zero needs
none). -/
def minWordLen (v : Nat) : Nat :=
  if v = 0 then 0 else Nat.log2 v / WORD_BITS + 1

/-- Modelled from the spec: `gcd::gcd_in_place(lhs, rhs)` (§4.2 "GCD",
Lehmer's algorithm; the `gcd` module is missing) leaves the gcd of the two
buffer values in `lhs` and returns the length of the result. -/
def gcd_in_place (lhs rhs : Buffer) : Buffer × Nat :=
  let g := Nat.gcd (wordsVal lhs) (wordsVal rhs)
  (wordsOf g lhs.length, minWordLen g)

/-- Sign of an integer as a dashu `Sign` (negative exactly for `i < 0`). -/
def intSign (i : Int) : Sign := if i < 0 then .negative else .positive

/-- Modelled from the spec: `gcd::xgcd_in_place(lhs, rhs, buffer, ..)`
(§4.2 "GCD", extended version): the gcd lands in `buffer`, the magnitude
of the Bézout coefficient of `lhs` is left in `rhs` and vice versa, and
the two coefficient signs are returned. -/
def xgcd_in_place (lhs rhs buffer : Buffer) :
    (Sign × Sign) × Buffer × Buffer × Buffer :=
  let a := wordsVal lhs
  let b := wordsVal rhs
  let s := Nat.gcdA a b
  let t := Nat.gcdB a b
  ((intSign s, intSign t),
   wordsOf t.natAbs (minWordLen t.natAbs),
   wordsOf s.natAbs (minWordLen s.natAbs),
   wordsOf (Nat.gcd a b) buffer.length)

/-- `IBig::from_sign_magnitude` (ibig.rs): attach a sign to a magnitude. -/
def IBig.fromSignMagnitude (sign : Sign) (magnitude : Repr) : Sign × Repr :=
  magnitude.withSign sign

/-- `ubig::gcd_large_dword` (gcd_ops.rs): gcd of a large number and a
double word. -/
def gcd_large_dword (buffer : List Nat) (rhs : Nat) : Except Panic Repr :=
  if rhs = 0 then .ok (ubigFromBuffer buffer)
  else
    let word := rem_by_dword buffer rhs
    if word = 0 then .ok (Repr.fromDword rhs)
    else (dwordGcd word rhs).map Repr.fromDword

/-- `ubig::gcd_large` (gcd_ops.rs): gcd of two large numbers through the
slice kernel, truncating the result buffer to the returned length. -/
def gcd_large (lhs rhs : Buffer) : Repr :=
  let r := gcd_in_place lhs rhs
  ubigFromBuffer (r.1.take r.2)

/-- `ubig::gcd_repr_ref_ref` (gcd_ops.rs): dispatch of `UBig::gcd`. -/
def gcd_repr_ref_ref : Repr → Repr → Except Panic Repr
  | .small dword0, .small dword1 => (dwordGcd dword0 dword1).map Repr.fromDword
  | .small dword0, .large buffer1 => gcd_large_dword buffer1 dword0
  | .large buffer0, .small dword1 => gcd_large_dword buffer0 dword1
  | .large buffer0, .large buffer1 => .ok (gcd_large buffer0 buffer1)

/-- `ubig::extended_gcd_large_dword` (gcd_ops.rs); the `IBig` coefficients
are embedded by their integer values. -/
def extended_gcd_large_dword (buffer : Buffer) (rhs : Nat) :
    Except Panic (Repr × Int × Int) :=
  if rhs = 0 then .ok (ubigFromBuffer buffer, 1, 0)
  else
    let dr := div_by_dword_in_place buffer rhs
    if dr.2 = 0 then .ok (Repr.fromDword rhs, 0, 1)
    else
      (dwordGcdExt rhs dr.2).map fun rst =>
        (Repr.fromDword rst.1, rst.2.2,
         -rst.2.2 * ((ubigFromBuffer dr.1).val : Int) + rst.2.1)

/-- `ubig::extended_gcd_large` (gcd_ops.rs): allocate a `min`-length zero
buffer, run the slice kernel, and assemble the three results. -/
def extended_gcd_large (lhs rhs : Buffer) : Repr × Int × Int :=
  let res_len := min lhs.length rhs.length
  let r := xgcd_in_place lhs rhs (List.replicate res_len 0)
  (ubigFromBuffer r.2.2.2,
   IBig.val (IBig.fromSignMagnitude r.1.1 (ubigFromBuffer r.2.2.1)),
   IBig.val (IBig.fromSignMagnitude r.1.2 (ubigFromBuffer r.2.1)))

/-- `ubig::xgcd_repr_val_val` (gcd_ops.rs): dispatch of
`UBig::extended_gcd`. -/
def xgcd_repr_val_val : Repr → Repr → Except Panic (Repr × Int × Int)
  | .small dword0, .small dword1 =>
      (dwordGcdExt dword0 dword1).map fun gst =>
        (Repr.fromDword gst.1, gst.2.1, gst.2.2)
  | .large buffer0, .small dword1 => extended_gcd_large_dword buffer0 dword1
  | .small dword0, .large buffer1 =>
      (extended_gcd_large_dword buffer1 dword0).map fun gst =>
        (gst.1, gst.2.2, gst.2.1)
  | .large buffer0, .large buffer1 => .ok (extended_gcd_large buffer0 buffer1)

end Dashu

namespace Dashu

theorem ubigFromBuffer_val (b : Buffer) :
    (ubigFromBuffer b).val = wordsVal b := by
  rw [ubigFromBuffer, fromBuffer_val, wordsVal_popZeros]

theorem take_wordsOf : ∀ (n v k : Nat),
    (wordsOf v n).take k = wordsOf v (min k n)
  | 0, v, k => by simp [wordsOf]
  | n + 1, v, 0 => by simp [wordsOf]
  | n + 1, v, k + 1 => by
    rw [Nat.succ_min_succ]
    simp only [wordsOf, List.take_succ_cons]
    rw [take_wordsOf n (v / WB) k]

theorem lt_WB_pow_minWordLen (v : Nat) : v < WB ^ minWordLen v := by
  unfold minWordLen
  split
  · rename_i hv; subst hv; decide
  · rename_i hv
    have h1 : Nat.log2 v < WORD_BITS * (Nat.log2 v / WORD_BITS + 1) := by
      show Nat.log2 v < 64 * (Nat.log2 v / 64 + 1)
      omega
    calc v < 2 ^ (WORD_BITS * (Nat.log2 v / WORD_BITS + 1)) :=
          (Nat.log2_lt hv).mp h1
    _ = WB ^ (Nat.log2 v / WORD_BITS + 1) := by
          rw [WB, ← pow_mul]

theorem val_of_minWordLen_words (v : Nat) :
    (ubigFromBuffer (wordsOf v (minWordLen v))).val = v := by
  rw [ubigFromBuffer_val, wordsVal_wordsOf,
    Nat.mod_eq_of_lt (lt_WB_pow_minWordLen v)]

theorem intSign_apply (i : Int) : (intSign i).apply i.natAbs = i := by
  unfold intSign
  split <;> simp only [Sign.apply] <;> omega

theorem bezout_coeff_val (s : Int) :
    IBig.val (IBig.fromSignMagnitude (intSign s)
      (ubigFromBuffer (wordsOf s.natAbs (minWordLen s.natAbs)))) = s := by
  rw [IBig.fromSignMagnitude, IBig_val_withSign, val_of_minWordLen_words,
    intSign_apply]

theorem gcd_bezout (a b : Nat) :
    (Nat.gcdA a b) * (a : Int) + (Nat.gcdB a b) * (b : Int)
      = (Nat.gcd a b : Int) := by
  rw [Nat.gcd_eq_gcd_ab a b]; ring

end Dashu

namespace Dashu

/-- Joint behaviour of the large-by-dword gcd and extended gcd paths:
the two paths agree on the divisor, which divides both operands, and the
extended coefficients satisfy the Bézout identity. -/
theorem extended_gcd_large_dword_spec (ws : List Nat) (d : Nat)
    (hwf : Repr.wfLarge ws) :
    ∃ g : Repr, ∃ s t : Int,
      extended_gcd_large_dword ws d = .ok (g, s, t) ∧
      gcd_large_dword ws d = .ok g ∧
      g.val ∣ wordsVal ws ∧ g.val ∣ d ∧
      s * (wordsVal ws : Int) + t * (d : Int) = (g.val : Int) := by
  by_cases hd : d = 0
  · subst hd
    refine ⟨ubigFromBuffer ws, 1, 0, ?_, ?_, ?_, ?_, ?_⟩
    · simp [extended_gcd_large_dword]
    · simp [gcd_large_dword]
    · rw [ubigFromBuffer_val]
    · exact dvd_zero _
    · rw [ubigFromBuffer_val]; ring
  · by_cases hrem : wordsVal ws % d = 0
    · refine ⟨Repr.fromDword d, 0, 1, ?_, ?_, ?_, ?_, ?_⟩
      · simp only [extended_gcd_large_dword, if_neg hd, div_by_dword_in_place]
        rw [if_pos hrem]
      · simp only [gcd_large_dword, if_neg hd, rem_by_dword]
        rw [if_pos hrem]
      · rw [fromDword_val]; exact Nat.dvd_of_mod_eq_zero hrem
      · rw [fromDword_val]
      · rw [fromDword_val]; ring
    · have hBlt : wordsVal ws < WB ^ ws.length := wordsVal_lt ws hwf.2.1
      have hqval : (ubigFromBuffer
          (wordsOf (wordsVal ws / d) ws.length)).val = wordsVal ws / d := by
        rw [ubigFromBuffer_val, wordsVal_wordsOf,
          Nat.mod_eq_of_lt (lt_of_le_of_lt (Nat.div_le_self _ d) hBlt)]
      refine ⟨Repr.fromDword (Nat.gcd d (wordsVal ws % d)),
        Nat.gcdB d (wordsVal ws % d),
        -(Nat.gcdB d (wordsVal ws % d)) * ((wordsVal ws / d : Nat) : Int)
          + Nat.gcdA d (wordsVal ws % d), ?_, ?_, ?_, ?_, ?_⟩
      · simp only [extended_gcd_large_dword, if_neg hd, div_by_dword_in_place]
        rw [if_neg hrem]
        simp only [dwordGcdExt]
        rw [if_neg (fun h => hd h.1)]
        simp only [Except.map]
        rw [hqval]
      · simp only [gcd_large_dword, if_neg hd, rem_by_dword]
        rw [if_neg hrem]
        simp only [dwordGcd]
        rw [if_neg (fun h => hrem h.1)]
        simp only [Except.map]
        rw [Nat.gcd_comm]
      · rw [fromDword_val]
        have h1 : Nat.gcd d (wordsVal ws % d) ∣ d * (wordsVal ws / d)
            + wordsVal ws % d :=
          dvd_add ((Nat.gcd_dvd_left d (wordsVal ws % d)).mul_right
            (wordsVal ws / d)) (Nat.gcd_dvd_right d (wordsVal ws % d))
        rwa [Nat.div_add_mod] at h1
      · rw [fromDword_val]; exact Nat.gcd_dvd_left d (wordsVal ws % d)
      · rw [fromDword_val]
        have hBdm : (wordsVal ws : Int)
            = (d : Int) * ((wordsVal ws / d : Nat) : Int)
              + ((wordsVal ws % d : Nat) : Int) := by
          exact_mod_cast (Nat.div_add_mod (wordsVal ws) d).symm
        have hb := gcd_bezout d (wordsVal ws % d)
        linear_combination hb + (Nat.gcdB d (wordsVal ws % d) : Int) * hBdm

end Dashu

namespace Dashu

/-- Reduced form of `extended_gcd_large`: the gcd buffer, and the two
Bézout coefficients of Bézout's lemma. -/
theorem extended_gcd_large_eq (ws0 ws1 : List Nat) :
    extended_gcd_large ws0 ws1
      = (ubigFromBuffer (wordsOf (Nat.gcd (wordsVal ws0) (wordsVal ws1))
          (min ws0.length ws1.length)),
         Nat.gcdA (wordsVal ws0) (wordsVal ws1),
         Nat.gcdB (wordsVal ws0) (wordsVal ws1)) := by
  simp only [extended_gcd_large, xgcd_in_place, List.length_replicate]
  rw [bezout_coeff_val, bezout_coeff_val]

end Dashu

namespace Dashu

/-- Claim C5 (amended): for `UBig` operands not both zero, `gcd`
succeeds and returns a `g` that divides both operands, and
`extended_gcd` succeeds with the same `g` (as a value) together with
Bézout coefficients `s`, `t` satisfying `s·a + t·b = g`.  The
coefficient-bound clause `|s| ≤ b/(2g) ∧ |t| ≤ a/(2g)` of the original
claim is dropped: it fails already at `a = b = 1`. -/
theorem C5_gcd_extended_gcd_bezout (a b : Repr) (ha : a.wf) (hb : b.wf)
    (hnz : ¬(a.val = 0 ∧ b.val = 0)) :
    ∃ g g' : Repr, ∃ s t : Int,
      gcd_repr_ref_ref a b = .ok g ∧
      xgcd_repr_val_val a b = .ok (g', s, t) ∧
      g'.val = g.val ∧
      g.val ∣ a.val ∧ g.val ∣ b.val ∧
      s * (a.val : Int) + t * (b.val : Int) = (g.val : Int) := by
  cases a with
  | small d0 =>
    cases b with
    | small d1 =>
      have hnz' : ¬(d0 = 0 ∧ d1 = 0) := hnz
      refine ⟨Repr.fromDword (Nat.gcd d0 d1), Repr.fromDword (Nat.gcd d0 d1),
        Nat.gcdA d0 d1, Nat.gcdB d0 d1, ?_, ?_, rfl, ?_, ?_, ?_⟩
      · show (dwordGcd d0 d1).map Repr.fromDword = _
        rw [dwordGcd, if_neg hnz']
        rfl
      · show (dwordGcdExt d0 d1).map _ = _
        rw [dwordGcdExt, if_neg hnz']
        rfl
      · exact Nat.gcd_dvd_left d0 d1
      · exact Nat.gcd_dvd_right d0 d1
      · exact gcd_bezout d0 d1
    | large ws1 =>
      obtain ⟨g, s, t, hx, hg, hdvB, hdvd0, hbez⟩ :=
        extended_gcd_large_dword_spec ws1 d0 hb
      refine ⟨g, g, t, s, hg, ?_, rfl, hdvd0, hdvB, ?_⟩
      · show (extended_gcd_large_dword ws1 d0).map _ = _
        rw [hx]
        rfl
      · show t * (d0 : Int) + s * (wordsVal ws1 : Int) = (g.val : Int)
        linear_combination hbez
  | large ws0 =>
    cases b with
    | small d1 =>
      obtain ⟨g, s, t, hx, hg, hdvA, hdvd1, hbez⟩ :=
        extended_gcd_large_dword_spec ws0 d1 ha
      exact ⟨g, g, s, t, hg, hx, rfl, hdvA, hdvd1, hbez⟩
    | large ws1 =>
      have hApos : 0 < wordsVal ws0 :=
        lt_of_lt_of_le (by decide) (wfLarge_val_lower ha)
      have hBpos : 0 < wordsVal ws1 :=
        lt_of_lt_of_le (by decide) (wfLarge_val_lower hb)
      have hAlt : wordsVal ws0 < WB ^ ws0.length := wordsVal_lt ws0 ha.2.1
      have hBlt : wordsVal ws1 < WB ^ ws1.length := wordsVal_lt ws1 hb.2.1
      have hgA : Nat.gcd (wordsVal ws0) (wordsVal ws1) ≤ wordsVal ws0 :=
        Nat.gcd_le_left _ hApos
      have hgB : Nat.gcd (wordsVal ws0) (wordsVal ws1) ≤ wordsVal ws1 :=
        Nat.gcd_le_right _ hBpos
      have hgmin : Nat.gcd (wordsVal ws0) (wordsVal ws1)
          < WB ^ (min (minWordLen (Nat.gcd (wordsVal ws0) (wordsVal ws1)))
              ws0.length) := by
        rcases le_total (minWordLen (Nat.gcd (wordsVal ws0) (wordsVal ws1)))
            ws0.length with h | h
        · rw [min_eq_left h]; exact lt_WB_pow_minWordLen _
        · rw [min_eq_right h]; exact lt_of_le_of_lt hgA hAlt
      have hgmin2 : Nat.gcd (wordsVal ws0) (wordsVal ws1)
          < WB ^ (min ws0.length ws1.length) := by
        rcases le_total ws0.length ws1.length with h | h
        · rw [min_eq_left h]; exact lt_of_le_of_lt hgA hAlt
        · rw [min_eq_right h]; exact lt_of_le_of_lt hgB hBlt
      have hgcdval : (gcd_large ws0 ws1).val
          = Nat.gcd (wordsVal ws0) (wordsVal ws1) := by
        simp only [gcd_large, gcd_in_place]
        rw [take_wordsOf, ubigFromBuffer_val, wordsVal_wordsOf,
          Nat.mod_eq_of_lt hgmin]
      refine ⟨gcd_large ws0 ws1,
        ubigFromBuffer (wordsOf (Nat.gcd (wordsVal ws0) (wordsVal ws1))
          (min ws0.length ws1.length)),
        Nat.gcdA (wordsVal ws0) (wordsVal ws1),
        Nat.gcdB (wordsVal ws0) (wordsVal ws1), rfl, ?_, ?_, ?_, ?_, ?_⟩
      · show Except.ok (extended_gcd_large ws0 ws1) = _
        rw [extended_gcd_large_eq]
      · rw [ubigFromBuffer_val, wordsVal_wordsOf, Nat.mod_eq_of_lt hgmin2,
          hgcdval]
      · rw [hgcdval]; exact Nat.gcd_dvd_left _ _
      · rw [hgcdval]; exact Nat.gcd_dvd_right _ _
      · rw [hgcdval]; exact gcd_bezout _ _

/-- Witness for C5 at `a = 12`, `b = 18`. -/
theorem C5_witness :
    ∃ g g' : Repr, ∃ s t : Int,
      gcd_repr_ref_ref (Repr.small 12) (Repr.small 18) = .ok g ∧
      xgcd_repr_val_val (Repr.small 12) (Repr.small 18) = .ok (g', s, t) ∧
      g'.val = g.val ∧
      g.val ∣ (Repr.small 12).val ∧ g.val ∣ (Repr.small 18).val ∧
      s * ((Repr.small 12).val : Int) + t * ((Repr.small 18).val : Int)
        = (g.val : Int) :=
  C5_gcd_extended_gcd_bezout (Repr.small 12) (Repr.small 18)
    (by decide) (by decide) (by decide)

/-- Counterexample to the original C5 coefficient bounds: at
`a = b = 1` the extended gcd returns `(g, s, t) = (1, 1, 0)` satisfying
the Bézout identity, yet `|s| ≤ b/(2g)` fails, since `2·g·|s| = 2 > 1`. -/
theorem C5_counterexample :
    ∃ g : Repr, ∃ s t : Int,
      xgcd_repr_val_val (Repr.small 1) (Repr.small 1) = .ok (g, s, t) ∧
      s * ((Repr.small 1).val : Int) + t * ((Repr.small 1).val : Int)
        = (g.val : Int) ∧
      ¬(2 * g.val * s.natAbs ≤ (Repr.small 1).val ∧
        2 * g.val * t.natAbs ≤ (Repr.small 1).val) := by
  refine ⟨Repr.small 1, 1, 0, ?_, by decide, by decide⟩
  have h : dwordGcdExt 1 1 = .ok (1, 1, 0) := by
    rw [dwordGcdExt, if_neg (by decide)]
    norm_num [Nat.gcdA, Nat.gcdB, Nat.xgcd, Nat.xgcdAux]
  have h2 : xgcd_repr_val_val (Repr.small 1) (Repr.small 1)
      = (dwordGcdExt 1 1).map
          fun gst => (Repr.fromDword gst.1, gst.2.1, gst.2.2) := rfl
  rw [h2, h]
  rfl

end Dashu

namespace Dashu

/-! ### dashu-int: byte conversions (claim C9, convert.rs)

Byte strings are embedded as little-endian `List Nat` with each entry a
byte value; `u8`/`Word` range constraints are carried by the `wf`
hypotheses where they matter. -/

def WORD_BYTES : Nat := 8

def DWORD_BYTES : Nat := 16

/-- Little-endian value of a byte list. -/
def bytesVal : List Nat → Nat
  | [] => 0
  | b :: rest => b + 256 * bytesVal rest

/-- The `k` little-endian bytes of `v mod 256^k`. -/
def bytesOfNat (v : Nat) : Nat → List Nat
  | 0 => []
  | k + 1 => v % 256 :: bytesOfNat (v / 256) k

/-- Modelled from the spec: `primitive::word_from_le_bytes_part` (the
`primitive` module is missing): assemble a word from at most
`WORD_BYTES` little-endian bytes. -/
def word_from_le_bytes_part (bytes : List Nat) : Nat := bytesVal bytes

/-- Modelled from the spec: `primitive::dword_from_le_bytes_part`. -/
def dword_from_le_bytes_part (bytes : List Nat) : Nat := bytesVal bytes

/-- Modelled from the spec: `primitive::word_from_be_bytes_part`:
big-endian bytes are the reverse of little-endian ones. -/
def word_from_be_bytes_part (bytes : List Nat) : Nat :=
  bytesVal bytes.reverse

/-- Modelled from the spec: `primitive::dword_from_be_bytes_part`. -/
def dword_from_be_bytes_part (bytes : List Nat) : Nat :=
  bytesVal bytes.reverse

/-- The `chunks_exact(WORD_BYTES)` loop of `Repr::from_le_bytes_large`:
one word per full 8-byte chunk, then one word from the nonempty
remainder; the fuel argument (instantiated with the byte count) makes
the recursion structural. -/
def le_words_aux : Nat → List Nat → List Nat
  | 0, _ => []
  | fuel + 1, bytes =>
    if bytes = [] then []
    else if bytes.length ≤ WORD_BYTES then [bytesVal bytes]
    else bytesVal (bytes.take WORD_BYTES)
      :: le_words_aux fuel (bytes.drop WORD_BYTES)

/-- `Repr::from_le_bytes_large` (convert.rs). -/
def Repr.from_le_bytes_large (bytes : List Nat) : Repr :=
  Repr.fromBuffer (le_words_aux bytes.length bytes)

/-- The `rchunks_exact(WORD_BYTES)` loop of `Repr::from_be_bytes_large`:
one word per full 8-byte big-endian chunk taken from the end of the
byte string, then one word from the nonempty remainder at the front. -/
def be_words_aux : Nat → List Nat → List Nat
  | 0, _ => []
  | fuel + 1, bytes =>
    if bytes = [] then []
    else if bytes.length ≤ WORD_BYTES then [bytesVal bytes.reverse]
    else bytesVal ((bytes.drop (bytes.length - WORD_BYTES)).reverse)
      :: be_words_aux fuel (bytes.take (bytes.length - WORD_BYTES))

/-- `Repr::from_be_bytes_large` (convert.rs). -/
def Repr.from_be_bytes_large (bytes : List Nat) : Repr :=
  Repr.fromBuffer (be_words_aux bytes.length bytes)

/-- `Repr::from_le_bytes` (convert.rs). -/
def Repr.from_le_bytes (bytes : List Nat) : Repr :=
  if bytes.length ≤ WORD_BYTES then
    Repr.fromWord (word_from_le_bytes_part bytes)
  else if bytes.length ≤ DWORD_BYTES then
    Repr.fromDword (dword_from_le_bytes_part bytes)
  else Repr.from_le_bytes_large bytes

/-- `Repr::from_be_bytes` (convert.rs). -/
def Repr.from_be_bytes (bytes : List Nat) : Repr :=
  if bytes.length ≤ WORD_BYTES then
    Repr.fromWord (word_from_be_bytes_part bytes)
  else if bytes.length ≤ DWORD_BYTES then
    Repr.fromDword (dword_from_be_bytes_part bytes)
  else Repr.from_be_bytes_large bytes

/-- The `to_le_bytes` loop over `words[..n-1]`: eight little-endian
bytes per word. -/
def bytesOfWords : List Nat → List Nat
  | [] => []
  | w :: rest => bytesOfNat w WORD_BYTES ++ bytesOfWords rest

/-- The `to_be_bytes` loop over `words[..n-1].iter().rev()`: eight
big-endian bytes per word, most significant remaining word first. -/
def beBytesOfWords : List Nat → List Nat
  | [] => []
  | w :: rest => beBytesOfWords rest ++ (bytesOfNat w WORD_BYTES).reverse

/-- `UBig::to_le_bytes` (convert.rs): the fixed-width little-endian form
with the value's leading zero bytes cut off the top. -/
def UBig.to_le_bytes : Repr → List Nat
  | .small x =>
      (bytesOfNat x DWORD_BYTES).take (DWORD_BYTES - leadingZeros128 x / 8)
  | .large words =>
      let last := words.getLastD 0
      bytesOfWords words.dropLast
        ++ (bytesOfNat last WORD_BYTES).take
            (WORD_BYTES - leadingZeros64 last / 8)

/-- `UBig::to_be_bytes` (convert.rs). -/
def UBig.to_be_bytes : Repr → List Nat
  | .small x =>
      ((bytesOfNat x DWORD_BYTES).reverse).drop (leadingZeros128 x / 8)
  | .large words =>
      let last := words.getLastD 0
      ((bytesOfNat last WORD_BYTES).reverse).drop (leadingZeros64 last / 8)
        ++ beBytesOfWords words.dropLast

end Dashu

namespace Dashu

theorem pow256_eq (k : Nat) : (256 : Nat) ^ k = 2 ^ (8 * k) := by
  rw [show (256 : Nat) = 2 ^ 8 from rfl, ← pow_mul]

theorem bytesOfNat_length (v k : Nat) : (bytesOfNat v k).length = k := by
  induction k generalizing v with
  | zero => rfl
  | succ j ih => simp [bytesOfNat, ih]

theorem bytesVal_bytesOfNat (v k : Nat) :
    bytesVal (bytesOfNat v k) = v % 256 ^ k := by
  induction k generalizing v with
  | zero => simp [bytesOfNat, bytesVal, Nat.mod_one]
  | succ j ih =>
    simp only [bytesOfNat, bytesVal, ih]
    rw [pow_succ, mul_comm ((256 : Nat) ^ j) 256, Nat.mod_mul]

theorem take_bytesOfNat : ∀ (n v k : Nat),
    (bytesOfNat v n).take k = bytesOfNat v (min k n)
  | 0, v, k => by simp [bytesOfNat]
  | n + 1, v, 0 => by simp [bytesOfNat]
  | n + 1, v, k + 1 => by
    rw [Nat.succ_min_succ]
    simp only [bytesOfNat, List.take_succ_cons]
    rw [take_bytesOfNat n (v / 256) k]

theorem bytesOfWords_length (ws : List Nat) :
    (bytesOfWords ws).length = 8 * ws.length := by
  induction ws with
  | nil => rfl
  | cons w rest ih =>
    simp only [bytesOfWords, List.length_append, bytesOfNat_length, ih,
      List.length_cons]
    norm_num [WORD_BYTES]
    ring

theorem beBytesOfWords_eq_reverse (ws : List Nat) :
    beBytesOfWords ws = (bytesOfWords ws).reverse := by
  induction ws with
  | nil => rfl
  | cons w rest ih =>
    simp only [beBytesOfWords, bytesOfWords, List.reverse_append, ih]

theorem getLast?_bytesOfNat : ∀ (k v : Nat), k ≠ 0 →
    (bytesOfNat v k).getLast? = some (v / 256 ^ (k - 1) % 256)
  | 0, _, h => absurd rfl h
  | 1, v, _ => by simp [bytesOfNat]
  | k + 2, v, _ => by
    show ((v % 256) :: bytesOfNat (v / 256) (k + 1)).getLast? = _
    have hc : bytesOfNat (v / 256) (k + 1)
        = (v / 256) % 256 :: bytesOfNat (v / 256 / 256) k := rfl
    rw [hc, List.getLast?_cons_cons, ← hc,
      getLast?_bytesOfNat (k + 1) (v / 256) (by omega)]
    show some (v / 256 / 256 ^ k % 256) = some (v / 256 ^ (k + 1) % 256)
    rw [Nat.div_div_eq_div_mul, ← pow_succ']

theorem bitLen_pos {v : Nat} (hv : v ≠ 0) : 1 ≤ bitLen v := by
  unfold bitLen
  rw [if_neg hv]
  omega

theorem lt_two_pow_bitLen' (v : Nat) : v < 2 ^ bitLen v := by
  by_cases hv : v = 0
  · subst hv; decide
  · exact lt_two_pow_bitLen hv

theorem keep_lt (v B : Nat) (hvB : v < 2 ^ (8 * B)) :
    v < 256 ^ (B - (8 * B - bitLen v) / 8) := by
  rw [pow256_eq]
  have hblt : v < 2 ^ bitLen v := lt_two_pow_bitLen' v
  have hble : bitLen v ≤ 8 * B := bitLen_le_of_lt hvB
  refine lt_of_lt_of_le hblt (Nat.pow_le_pow_right (by norm_num) ?_)
  have h8 : (8 * B - bitLen v) / 8 * 8 ≤ 8 * B - bitLen v :=
    Nat.div_mul_le_self _ 8
  omega

theorem bytesVal_keep (v B : Nat) (hvB : v < 2 ^ (8 * B)) :
    bytesVal (bytesOfNat v (B - (8 * B - bitLen v) / 8)) = v := by
  rw [bytesVal_bytesOfNat, Nat.mod_eq_of_lt (keep_lt v B hvB)]

theorem skip_le_pred (v B : Nat) (hv : v ≠ 0) (_hB : B ≠ 0) :
    (8 * B - bitLen v) / 8 ≤ B - 1 := by
  have hb := bitLen_pos hv
  omega

theorem top_byte_ne (v B : Nat) (hv : v ≠ 0) (hvB : v < 2 ^ (8 * B))
    (hB : B ≠ 0) :
    ¬((bytesOfNat v (B - (8 * B - bitLen v) / 8)).getLast? = some 0) := by
  have hble : bitLen v ≤ 8 * B := bitLen_le_of_lt hvB
  have hb := bitLen_pos hv
  have hk1 : 1 ≤ B - (8 * B - bitLen v) / 8 := by
    have := skip_le_pred v B hv hB
    omega
  rw [getLast?_bytesOfNat _ v (by omega)]
  have hlow : 256 ^ (B - (8 * B - bitLen v) / 8 - 1) ≤ v := by
    rw [pow256_eq]
    by_contra hcon2
    push_neg at hcon2
    have hup := bitLen_le_of_lt hcon2
    omega
  have hhi : v / 256 ^ (B - (8 * B - bitLen v) / 8 - 1) < 256 := by
    have hkeep := keep_lt v B hvB
    rw [Nat.div_lt_iff_lt_mul (Nat.pos_pow_of_pos _ (by norm_num))]
    calc v < 256 ^ (B - (8 * B - bitLen v) / 8) := hkeep
    _ = 256 * 256 ^ (B - (8 * B - bitLen v) / 8 - 1) := by
        rw [← pow_succ']
        congr 1
        omega
  have hq1 : 1 ≤ v / 256 ^ (B - (8 * B - bitLen v) / 8 - 1) :=
    (Nat.one_le_div_iff (Nat.pos_pow_of_pos _ (by norm_num))).mpr hlow
  rw [Nat.mod_eq_of_lt hhi]
  intro hcon
  simp only [Option.some.injEq] at hcon
  omega

end Dashu

namespace Dashu

theorem le_words_aux_append : ∀ (ws rest : List Nat) (fuel : Nat),
    (∀ w ∈ ws, w < WB) → rest.length ≤ 8 → rest ≠ [] →
    8 * ws.length + rest.length ≤ fuel →
    le_words_aux fuel (bytesOfWords ws ++ rest) = ws ++ [bytesVal rest]
  | [], rest, fuel, _, hlen, hne, hfuel => by
    have hr1 : 1 ≤ rest.length := List.length_pos.mpr hne
    match fuel, hfuel with
    | 0, hfuel =>
      simp only [List.length_nil] at hfuel
      omega
    | fuel + 1, _ =>
      show le_words_aux (fuel + 1) ([] ++ rest) = [bytesVal rest]
      rw [List.nil_append]
      rw [le_words_aux, if_neg hne,
        if_pos (show rest.length ≤ WORD_BYTES from hlen)]
  | w :: ws, rest, fuel, hw, hlen, hne, hfuel => by
    have hr1 : 1 ≤ rest.length := List.length_pos.mpr hne
    have hlen2 : (bytesOfNat w 8 ++ (bytesOfWords ws ++ rest)).length
        = 8 + (8 * ws.length + rest.length) := by
      simp [bytesOfNat_length, bytesOfWords_length]
    match fuel, hfuel with
    | 0, hfuel =>
      simp only [List.length_cons] at hfuel
      omega
    | fuel + 1, hfuel =>
      show le_words_aux (fuel + 1)
        ((bytesOfNat w 8 ++ bytesOfWords ws) ++ rest) = _
      rw [List.append_assoc]
      rw [le_words_aux]
      rw [if_neg (by
        intro hcon
        have hcl := congrArg List.length hcon
        rw [hlen2] at hcl
        simp at hcl)]
      rw [if_neg (by
        rw [show ((bytesOfNat w 8 ++ (bytesOfWords ws ++ rest)).length
            ≤ WORD_BYTES) = (8 + (8 * ws.length + rest.length) ≤ 8)
          from by rw [hlen2]; rfl]
        omega)]
      rw [show ((bytesOfNat w 8 ++ (bytesOfWords ws ++ rest)).take WORD_BYTES)
          = bytesOfNat w 8 from List.take_left' (bytesOfNat_length w 8)]
      rw [show ((bytesOfNat w 8 ++ (bytesOfWords ws ++ rest)).drop WORD_BYTES)
          = bytesOfWords ws ++ rest from List.drop_left' (bytesOfNat_length w 8)]
      rw [le_words_aux_append ws rest fuel
        (fun x hx => hw x (List.mem_cons_of_mem w hx)) hlen hne (by
          simp only [List.length_cons] at hfuel
          omega)]
      have hwv : bytesVal (bytesOfNat w 8) = w := by
        rw [bytesVal_bytesOfNat, Nat.mod_eq_of_lt]
        calc w < WB := hw w (List.mem_cons_self w ws)
        _ = 256 ^ 8 := by decide
      rw [hwv]
      rfl

end Dashu

namespace Dashu

theorem from_le_short (bytes : List Nat) (h : bytes.length ≤ DWORD_BYTES) :
    Repr.from_le_bytes bytes = .small (bytesVal bytes) := by
  unfold Repr.from_le_bytes
  by_cases h1 : bytes.length ≤ WORD_BYTES
  · rw [if_pos h1]
    rfl
  · rw [if_neg h1, if_pos h]
    rfl

theorem fromBuffer_of_long (b : Buffer) (h : 3 ≤ b.length) :
    Repr.fromBuffer b = .large (Buffer.shrink b) := by
  rcases b with _ | ⟨x, _ | ⟨y, _ | ⟨z, rest⟩⟩⟩
  · simp at h
  · simp at h
  · simp at h
  · rfl

theorem be_words_aux_eq : ∀ (fuel : Nat) (bytes : List Nat),
    bytes.length ≤ fuel →
    be_words_aux fuel bytes = le_words_aux fuel bytes.reverse
  | 0, bytes, _ => rfl
  | fuel + 1, bytes, h => by
    by_cases hb : bytes = []
    · subst hb; rfl
    · have hbr : bytes.reverse ≠ [] := by
        simp [hb]
      rw [be_words_aux, le_words_aux, if_neg hb, if_neg hbr]
      by_cases hlen : bytes.length ≤ WORD_BYTES
      · rw [if_pos hlen, if_pos (by rwa [List.length_reverse])]
      · rw [if_neg hlen, if_neg (by rwa [List.length_reverse])]
      
        have hWB : (WORD_BYTES : Nat) = 8 := rfl
        have h1 : bytes.reverse.take WORD_BYTES
            = (bytes.drop (bytes.length - WORD_BYTES)).reverse := by
          rw [List.reverse_drop]
          congr 1
          rw [hWB]
          omega
        have h2 : bytes.reverse.drop WORD_BYTES
            = (bytes.take (bytes.length - WORD_BYTES)).reverse := by
          rw [List.reverse_take]
          congr 1
          rw [hWB]
          omega
        rw [h1, h2, be_words_aux_eq fuel (bytes.take (bytes.length - WORD_BYTES))
          (by
            rw [List.length_take]
            rw [hWB] at hlen ⊢
            omega)]

theorem from_be_eq_rev (bytes : List Nat) :
    Repr.from_be_bytes bytes = Repr.from_le_bytes bytes.reverse := by
  unfold Repr.from_be_bytes Repr.from_le_bytes
  rw [List.length_reverse]
  by_cases h1 : bytes.length ≤ WORD_BYTES
  · rw [if_pos h1, if_pos h1]
    rfl
  · rw [if_neg h1, if_neg h1]
    by_cases h2 : bytes.length ≤ DWORD_BYTES
    · rw [if_pos h2, if_pos h2]
      rfl
    · rw [if_neg h2, if_neg h2]
      unfold Repr.from_be_bytes_large Repr.from_le_bytes_large
      rw [List.length_reverse, be_words_aux_eq bytes.length bytes le_rfl]

end Dashu

namespace Dashu

theorem to_be_eq_rev (x : Repr) :
    UBig.to_be_bytes x = (UBig.to_le_bytes x).reverse := by
  cases x with
  | small dw =>
    show (bytesOfNat dw DWORD_BYTES).reverse.drop (leadingZeros128 dw / 8)
      = ((bytesOfNat dw DWORD_BYTES).take
          (DWORD_BYTES - leadingZeros128 dw / 8)).reverse
    rw [List.reverse_take]
    congr 1
    rw [bytesOfNat_length]
    have h16 : leadingZeros128 dw / 8 ≤ 16 := by
      unfold leadingZeros128
      omega
    show leadingZeros128 dw / 8
      = (16 : Nat) - ((16 : Nat) - leadingZeros128 dw / 8)
    omega
  | large ws =>
    show ((bytesOfNat (ws.getLastD 0) WORD_BYTES).reverse).drop
        (leadingZeros64 (ws.getLastD 0) / 8) ++ beBytesOfWords ws.dropLast
      = (bytesOfWords ws.dropLast
          ++ (bytesOfNat (ws.getLastD 0) WORD_BYTES).take
              (WORD_BYTES - leadingZeros64 (ws.getLastD 0) / 8)).reverse
    rw [List.reverse_append, beBytesOfWords_eq_reverse]
    congr 1
    rw [List.reverse_take]
    congr 1
    rw [bytesOfNat_length]
    have h8 : leadingZeros64 (ws.getLastD 0) / 8 ≤ 8 := by
      unfold leadingZeros64
      omega
    show leadingZeros64 (ws.getLastD 0) / 8
      = (8 : Nat) - ((8 : Nat) - leadingZeros64 (ws.getLastD 0) / 8)
    omega

end Dashu

namespace Dashu

theorem to_le_small_eq (dw : Nat) :
    UBig.to_le_bytes (.small dw)
      = bytesOfNat dw (DWORD_BYTES - leadingZeros128 dw / 8) := by
  show (bytesOfNat dw DWORD_BYTES).take (DWORD_BYTES - leadingZeros128 dw / 8)
    = _
  rw [take_bytesOfNat]
  congr 1
  exact min_eq_left (Nat.sub_le _ _)

theorem roundtrip_le_small (dw : Nat) (hdw : dw < DWB) :
    Repr.from_le_bytes (UBig.to_le_bytes (.small dw)) = .small dw := by
  rw [from_le_short _ (by
    rw [to_le_small_eq, bytesOfNat_length]
    exact Nat.sub_le _ _)]
  congr 1
  rw [to_le_small_eq]
  exact bytesVal_keep dw 16 hdw

theorem to_le_small_min (dw : Nat) (hdw : dw < DWB) :
    (UBig.to_le_bytes (.small dw)).getLast? ≠ some 0 := by
  by_cases h0 : dw = 0
  · subst h0
    intro hcon
    exact Option.noConfusion hcon
  · rw [to_le_small_eq]
    exact top_byte_ne dw 16 h0 hdw (by norm_num)

end Dashu

namespace Dashu

theorem roundtrip_le_large (ws : List Nat) (hwf : Repr.wfLarge ws) :
    Repr.from_le_bytes (UBig.to_le_bytes (.large ws)) = .large ws ∧
    (UBig.to_le_bytes (.large ws)).getLast? ≠ some 0 := by
  obtain ⟨hlen3, hmem, hlast?⟩ := hwf
  have hne : ws ≠ [] := by
    intro hc
    rw [hc] at hlen3
    simp at hlen3
  have hlast_eq : ws.getLastD 0 = ws.getLast hne := by
    rw [List.getLastD_eq_getLast?, List.getLast?_eq_getLast_of_ne_nil hne]
    rfl
  have hlast0 : ws.getLastD 0 ≠ 0 := by
    rw [hlast_eq]
    intro h0
    apply hlast?
    rw [List.getLast?_eq_getLast_of_ne_nil hne, h0]
  have hlastlt : ws.getLastD 0 < 2 ^ (8 * 8) := by
    rw [hlast_eq]
    exact hmem _ (List.getLast_mem hne)
  have hT : (bytesOfNat (ws.getLastD 0) WORD_BYTES).take
        (WORD_BYTES - leadingZeros64 (ws.getLastD 0) / 8)
      = bytesOfNat (ws.getLastD 0)
        (WORD_BYTES - leadingZeros64 (ws.getLastD 0) / 8) := by
    rw [take_bytesOfNat]
    congr 1
    exact min_eq_left (Nat.sub_le _ _)
  have hskip : leadingZeros64 (ws.getLastD 0) / 8 ≤ 7 := by
    have := skip_le_pred (ws.getLastD 0) 8 hlast0 (by norm_num)
    exact this
  have hL : UBig.to_le_bytes (.large ws)
      = bytesOfWords ws.dropLast ++ bytesOfNat (ws.getLastD 0)
          (WORD_BYTES - leadingZeros64 (ws.getLastD 0) / 8) := by
    show bytesOfWords ws.dropLast
        ++ (bytesOfNat (ws.getLastD 0) WORD_BYTES).take
            (WORD_BYTES - leadingZeros64 (ws.getLastD 0) / 8) = _
    rw [hT]
  have hTlen : (bytesOfNat (ws.getLastD 0)
      (WORD_BYTES - leadingZeros64 (ws.getLastD 0) / 8)).length
      = 8 - leadingZeros64 (ws.getLastD 0) / 8 := bytesOfNat_length _ _
  have hTne : bytesOfNat (ws.getLastD 0)
      (WORD_BYTES - leadingZeros64 (ws.getLastD 0) / 8) ≠ [] := by
    intro hc
    have h := congrArg List.length hc
    rw [hTlen, List.length_nil] at h
    omega
  have hLlen : (UBig.to_le_bytes (.large ws)).length
      = 8 * (ws.length - 1) + (8 - leadingZeros64 (ws.getLastD 0) / 8) := by
    rw [hL, List.length_append, bytesOfWords_length, List.length_dropLast,
      hTlen]
  have hTval : bytesVal (bytesOfNat (ws.getLastD 0)
      (WORD_BYTES - leadingZeros64 (ws.getLastD 0) / 8)) = ws.getLastD 0 :=
    bytesVal_keep (ws.getLastD 0) 8 hlastlt
  constructor
  · unfold Repr.from_le_bytes
    rw [if_neg (by
      rw [hLlen]
      show ¬(8 * (ws.length - 1) + (8 - leadingZeros64 (ws.getLastD 0) / 8)
        ≤ 8)
      omega)]
    rw [if_neg (by
      rw [hLlen]
      show ¬(8 * (ws.length - 1) + (8 - leadingZeros64 (ws.getLastD 0) / 8)
        ≤ 16)
      omega)]
    unfold Repr.from_le_bytes_large
    rw [hLlen, hL]
    rw [le_words_aux_append ws.dropLast _ _
      (fun w hw => hmem w (List.mem_of_mem_dropLast hw))
      (by rw [hTlen]; omega) hTne
      (by rw [hTlen, List.length_dropLast])]
    rw [hTval, hlast_eq, List.dropLast_append_getLast hne]
    rw [fromBuffer_of_long ws hlen3]
    rfl
  · rw [hL, List.getLast?_append_of_ne_nil _ hTne]
    exact top_byte_ne (ws.getLastD 0) 8 hlast0 hlastlt (by norm_num)

end Dashu

namespace Dashu

/-- Claim C9: for every well-formed `UBig`, `from_le_bytes ∘ to_le_bytes`
and `from_be_bytes ∘ to_be_bytes` are the identity, and the produced byte
strings are minimal: no zero byte at the most significant end (the last
little-endian byte, the first big-endian byte), with zero serializing to
the empty string. -/
theorem C9_bytes_roundtrip (x : Repr) (hx : x.wf) :
    Repr.from_le_bytes (UBig.to_le_bytes x) = x ∧
    Repr.from_be_bytes (UBig.to_be_bytes x) = x ∧
    (UBig.to_le_bytes x).getLast? ≠ some 0 ∧
    (UBig.to_be_bytes x).head? ≠ some 0 ∧
    (x.val = 0 → UBig.to_le_bytes x = [] ∧ UBig.to_be_bytes x = []) := by
  have hle : Repr.from_le_bytes (UBig.to_le_bytes x) = x := by
    cases x with
    | small dw => exact roundtrip_le_small dw hx
    | large ws => exact (roundtrip_le_large ws hx).1
  have hmin : (UBig.to_le_bytes x).getLast? ≠ some 0 := by
    cases x with
    | small dw => exact to_le_small_min dw hx
    | large ws => exact (roundtrip_le_large ws hx).2
  have hzero : x.val = 0 → UBig.to_le_bytes x = [] := by
    intro h
    cases x with
    | small dw =>
      have hdw : dw = 0 := h
      subst hdw
      rfl
    | large ws =>
      have hlow := wfLarge_val_lower hx
      have hv : (Repr.large ws).val = wordsVal ws := rfl
      rw [hv] at h
      have hD : 0 < DWB := by decide
      omega
  refine ⟨hle, ?_, hmin, ?_, fun h => ⟨hzero h, ?_⟩⟩
  · rw [from_be_eq_rev, to_be_eq_rev, List.reverse_reverse]
    exact hle
  · rw [to_be_eq_rev, List.head?_reverse]
    exact hmin
  · rw [to_be_eq_rev, hzero h]
    rfl

/-- Witness for C9 at `x = 5`. -/
theorem C9_witness :
    Repr.from_le_bytes (UBig.to_le_bytes (Repr.small 5)) = Repr.small 5 ∧
    Repr.from_be_bytes (UBig.to_be_bytes (Repr.small 5)) = Repr.small 5 ∧
    (UBig.to_le_bytes (Repr.small 5)).getLast? ≠ some 0 ∧
    (UBig.to_be_bytes (Repr.small 5)).head? ≠ some 0 ∧
    ((Repr.small 5).val = 0 →
      UBig.to_le_bytes (Repr.small 5) = [] ∧
      UBig.to_be_bytes (Repr.small 5) = []) :=
  C9_bytes_roundtrip (Repr.small 5) (by decide)

end Dashu

namespace Dashu

/-! ### dashu-int: floor logarithm (claim C4, log.rs)

The estimate-and-correct loops of log.rs are embedded with an explicit
fuel argument large enough for the Rust loop bounds (the power at least
doubles at every continuing step); the `IBig`-free helpers from the
missing modules (math.rs, pow, mul, cmp, radix) are modelled from the
spec at the value level. -/

/-- Canonical `Repr` of a value: inline when it fits a double word,
minimal heap form otherwise.  Used to embed the value-level results of
the missing `pow`/`mul` repr helpers. -/
def reprOfVal (v : Nat) : Repr :=
  if v < DWB then Repr.fromDword v
  else Repr.fromBuffer (wordsOf v (minWordLen v))

/-- Modelled from the spec: `set_bit` on zero (the bit-ops module is
missing) produces the `Repr` of `2^n`. -/
def set_bit_zero (n : Nat) : Repr := reprOfVal (2 ^ n)

/-- Modelled from the spec: `bit_len` of a typed repr: word count times
the word size minus the leading zeros of the top word. -/
def Repr.bit_len : Repr → Nat
  | .small dw => bitLen dw
  | .large ws => WORD_BITS * (ws.length - 1) + bitLen (ws.getLastD 0)

/-- Modelled from the spec: `math::log2_dword_fp8` (math.rs is missing):
the fixed-point-base-256 floor of `log₂ v` ("FP8 log"). -/
def log2_dword_fp8 (v : Nat) : Nat := Nat.log2 (v ^ 256)

/-- Modelled from the spec: `math::log2_word_fp8`. -/
def log2_word_fp8 (v : Nat) : Nat := Nat.log2 (v ^ 256)

/-- Modelled from the spec: `math::ceil_log2_dword_fp8`: the ceiling
counterpart. -/
def ceil_log2_dword_fp8 (v : Nat) : Nat :=
  if isPowerOfTwo v then log2_dword_fp8 v else log2_dword_fp8 v + 1

/-- Modelled from the spec: `math::ceil_log2_word_fp8`. -/
def ceil_log2_word_fp8 (v : Nat) : Nat :=
  if isPowerOfTwo v then log2_word_fp8 v else log2_word_fp8 v + 1

/-- Modelled from the spec: `math::max_exp_in_word(b)`: the largest
power of `b` that fits in a word, as `(exponent, power)`. -/
def max_exp_in_word (b : Nat) : Nat × Nat :=
  (Nat.log b (WB - 1), b ^ Nat.log b (WB - 1))

/-- Modelled from the spec: the base-10 entry of the radix table
(radix.rs is missing): 19 digits per 64-bit word. -/
def RADIX10_digits_per_word : Nat := 19

/-- Modelled from the spec: the base-10 word range `10^19`. -/
def RADIX10_range_per_word : Nat := 10 ^ 19

/-- Modelled from the spec: `cmp::cmp_in_place` compares two word
slices numerically (cmp.rs is missing; the inputs at every call site
carry no leading-zero word). -/
def cmp_in_place (a b : List Nat) : Ordering :=
  compare (wordsVal a) (wordsVal b)

/-- Modelled from the spec: `mul::mul_word_in_place(buffer, w)` (§4.2):
multiply in place, returning the carry word. -/
def mul_word_in_place (b : Buffer) (w : Nat) : Buffer × Nat :=
  (wordsOf (wordsVal b * w) b.length, wordsVal b * w / WB ^ b.length)

/-- Modelled from the spec: `Buffer::push_resizing`. -/
def push_resizing (b : Buffer) (w : Nat) : Buffer := b ++ [w]

/-- Modelled from the spec: `div::div_by_word_in_place(buffer, w)`
(§4.2): quotient in place, remainder returned. -/
def div_by_word_in_place (b : Buffer) (w : Nat) : Buffer × Nat :=
  (wordsOf (wordsVal b / w) b.length, wordsVal b % w)

/-- Modelled from the spec: `pow::repr::pow_word_base(b, e)`. -/
def pow_word_base (b e : Nat) : Repr := reprOfVal (b ^ e)

/-- Modelled from the spec: `pow::repr::pow_dword_base(b, e)`. -/
def pow_dword_base (b e : Nat) : Repr := reprOfVal (b ^ e)

/-- Modelled from the spec: `pow::repr::pow_large_base(b, e)`. -/
def pow_large_base (b : List Nat) (e : Nat) : Repr :=
  reprOfVal (wordsVal b ^ e)

/-- Modelled from the spec: `mul_ops::repr::mul_large`. -/
def mul_large (a b : List Nat) : Repr :=
  reprOfVal (wordsVal a * wordsVal b)

/-- Modelled from the spec: `Repr::into_buffer` (minimal word form). -/
def Repr.into_buffer : Repr → Buffer
  | .small dw => wordsOf dw (minWordLen dw)
  | .large ws => ws

/-- `u128::checked_mul`. -/
def checked_mul_dword (a b : Nat) : Option Nat :=
  if a * b < DWB then some (a * b) else none

end Dashu

namespace Dashu

/-- The correction loop of `log_dword` (log.rs): advance while the next
power stays at or below the target, stop at or above it. -/
def log_dword_loop (base target : Nat) : Nat → Nat → Nat → Nat × Nat
  | 0, est, est_pow => (est, est_pow)
  | fuel + 1, est, est_pow =>
    match checked_mul_dword est_pow base with
    | none => (est, est_pow)
    | some next_pow =>
      if next_pow < target then log_dword_loop base target fuel (est + 1) next_pow
      else if next_pow = target then (est + 1, next_pow)
      else (est, est_pow)

/-- `log_dword` (log.rs): shortcuts, fp8 estimate, correction loop. -/
def log_dword (target base : Nat) : Except Panic (Nat × Repr) :=
  if target = 0 then .error .invalidLogOperand
  else if target = 1 then .ok (0, Repr.one)
  else if target < base then .ok (0, Repr.one)
  else if target = base then .ok (1, Repr.fromDword base)
  else
    let est := log2_dword_fp8 target / ceil_log2_dword_fp8 base
    let r := log_dword_loop base target 130 est (base ^ est)
    .ok (r.1, Repr.fromDword r.2)

/-- `log2_large_fp8` (log.rs). -/
def log2_large_fp8 (words : List Nat) : Nat :=
  log2_dword_fp8 (highest_dword words) + (words.length - 2) * WORD_BITS

/-- `ceil_log2_large_fp8` (log.rs). -/
def ceil_log2_large_fp8 (words : List Nat) : Nat :=
  (if isPowerOfTwo (highest_dword words) then
    tz (highest_dword words) * 256 + 1
  else ceil_log2_dword_fp8 (highest_dword words))
    + (words.length - 2) * WORD_BITS

/-- The first loop of `log_word_base` (log.rs): grow the power by
`wbase` while it is shorter than the target, with a one-step lookahead
against the target's highest double word. -/
def log_word_base_grow (target : List Nat) (wbase wexp : Nat) :
    Nat → Buffer → Nat → Buffer × Nat
  | 0, est_pow, est => (est_pow, est)
  | fuel + 1, est_pow, est =>
    if est_pow.length < target.length then
      if est_pow.length = target.length - 1 ∧
          highest_dword target < (est_pow.getLastD 0 + 1) * wbase then
        (est_pow, est)
      else
        let m := mul_word_in_place est_pow wbase
        log_word_base_grow target wbase wexp fuel
          (push_resizing m.1 m.2) (est + wexp)
    else (est_pow, est)

/-- The second loop of `log_word_base` (log.rs): multiply by `base`
until equal or overshot, dividing back once on overshoot. -/
def log_word_base_fix (target : List Nat) (base : Nat) :
    Nat → Buffer → Nat → Buffer × Nat
  | 0, est_pow, est => (est_pow, est)
  | fuel + 1, est_pow, est =>
    match cmp_in_place est_pow target with
    | .lt =>
      let m := mul_word_in_place est_pow base
      log_word_base_fix target base fuel (push_resizing m.1 m.2) (est + 1)
    | .eq => (est_pow, est)
    | .gt => ((div_by_word_in_place est_pow base).1, est - 1)

/-- `log_word_base` (log.rs). -/
def log_word_base (target : List Nat) (base : Nat) : Nat × Repr :=
  let we := if base = 10 then (RADIX10_digits_per_word, RADIX10_range_per_word)
    else max_exp_in_word base
  let est := log2_large_fp8 target * we.1 / ceil_log2_word_fp8 we.2
  let est_pow :=
    (if est = 1 then Repr.fromWord base else pow_word_base base est).into_buffer
  let grown := log_word_base_grow target we.2 we.1
    (64 * (target.length + 2)) est_pow est
  let fixed := log_word_base_fix target base
    (64 * (target.length + 2)) grown.1 grown.2
  (fixed.2, Repr.fromBuffer fixed.1)

/-- The correction loop of `log_large` (log.rs). -/
def log_large_fix (target base : List Nat) :
    Nat → Repr → Nat → Repr × Nat
  | 0, est_pow, est => (est_pow, est)
  | fuel + 1, est_pow, est =>
    let next_pow := mul_large est_pow.into_buffer base
    match cmp_in_place next_pow.into_buffer target with
    | .lt => log_large_fix target base fuel next_pow (est + 1)
    | .eq => (next_pow, est + 1)
    | .gt => (est_pow, est)

/-- `log_large` (log.rs). -/
def log_large (target base : List Nat) : Nat × Repr :=
  let est0 := if target.length < (WB - 1) / 8 then
      log2_large_fp8 target / ceil_log2_large_fp8 base
    else
      (target.length * WORD_BITS - leadingZeros64 (target.getLastD 0))
        / ((base.length + 1) * WORD_BITS)
  let est := max est0 1
  let est_pow := if est = 1 then Repr.fromBuffer base
    else if base.length = 2 then pow_dword_base (highest_dword base) est
    else pow_large_base base est
  let r := log_large_fix target base (64 * (target.length + 2)) est_pow est
  (r.2, r.1)

/-- `TypedReprRef::log` (log.rs): the power-of-two shortcuts on a small
base, then the small/large dispatch. -/
def reprLog (x base : Repr) : Except Panic (Nat × Repr) :=
  match base with
  | .small dw =>
    if dw = 0 ∨ dw = 1 then .error .invalidLogOperand
    else if dw = 2 then
      .ok (x.bit_len - 1, set_bit_zero x.bit_len)
    else if isPowerOfTwo dw then
      .ok ((x.bit_len - 1) / tz dw, set_bit_zero ((x.bit_len - 1) / tz dw * tz dw))
    else
      match x with
      | .small dword => log_dword dword dw
      | .large words =>
        match shrink_dword dw with
        | some base_word => .ok (log_word_base words base_word)
        | none => .ok (log_large words [dw % WB, dw / WB])
  | .large base_words =>
    match x with
    | .small _ => .ok (0, Repr.one)
    | .large words =>
      match cmp_in_place words base_words with
      | .lt => .ok (0, Repr.one)
      | .eq => .ok (1, Repr.fromBuffer words)
      | .gt => .ok (log_large words base_words)

end Dashu

namespace Dashu

/-- Claim C4, refuted: at `x = 2`, `base = 2` the base-2 shortcut of
`TypedReprRef::log` returns the pair `(1, 4)` — the power is
`2^bit_len(x) = 4` (from `set_bit(bit_len)`), not `base^k = 2` — so
`p = b^k` and `p ≤ x` both fail, against the spec and the function's own
doc "returns (log(self), base^log(self))". -/
theorem C4_log_base2_power_wrong :
    ∃ k : Nat, ∃ p : Repr,
      reprLog (Repr.small 2) (Repr.small 2) = .ok (k, p) ∧
      k = 1 ∧ p.val = 4 ∧
      ¬(p.val = 2 ^ k ∧ p.val ≤ (Repr.small 2).val) := by
  have hb : Repr.bit_len (Repr.small 2) = 2 := by
    simp [Repr.bit_len, bitLen, Nat.log2]
  have hs : set_bit_zero 2 = Repr.small 4 := by
    rw [set_bit_zero, reprOfVal, if_pos (by decide)]
    rfl
  refine ⟨1, Repr.small 4, ?_, rfl, rfl, by decide⟩
  show (if (2 : Nat) = 0 ∨ (2 : Nat) = 1 then
      (.error .invalidLogOperand : Except Panic (Nat × Repr))
    else if (2 : Nat) = 2 then
      .ok ((Repr.small 2).bit_len - 1, set_bit_zero (Repr.small 2).bit_len)
    else if isPowerOfTwo 2 then
      .ok (((Repr.small 2).bit_len - 1) / tz 2,
        set_bit_zero (((Repr.small 2).bit_len - 1) / tz 2 * tz 2))
    else log_dword 2 2) = .ok (1, Repr.small 4)
  rw [if_neg (by decide), if_pos rfl, hb, hs]

end Dashu

namespace Dashu

/-! ### dashu: square root (claim C3, base ring/root.rs and
integer root/karatsuba.rs)

Machine integers are `Nat`s reduced modulo `2^32` / `WB` / `DWB`
exactly where the Rust types wrap; the `i8` carry accumulators are
embedded as `Int` through `toI8`.  `bitLenAux` is a fuel-structural bit
length so every definition of this section evaluates inside the
kernel. -/

def bitLenAux : Nat → Nat → Nat
  | 0, _ => 0
  | fuel + 1, n => if n = 0 then 0 else bitLenAux fuel (n / 2) + 1

/-- `u64::leading_zeros`. -/
def lz64 (n : Nat) : Nat := 64 - bitLenAux 64 n

/-- `u128::leading_zeros`. -/
def lz128 (n : Nat) : Nat := 128 - bitLenAux 128 n

/-- The 9-bit reciprocal square root table (root.rs `RSQRT_TAB`). -/
def RSQRT_TAB : List Nat := [
  0xfc, 0xf4, 0xed, 0xe6, 0xdf, 0xd9, 0xd3, 0xcd, 0xc7, 0xc2, 0xbc, 0xb7,
  0xb2, 0xad, 0xa9, 0xa4, 0xa0, 0x9c, 0x98, 0x94, 0x90, 0x8c, 0x88, 0x85,
  0x81, 0x7e, 0x7b, 0x77, 0x74, 0x71, 0x6e, 0x6b, 0x69, 0x66, 0x63, 0x61,
  0x5e, 0x5b, 0x59, 0x57, 0x54, 0x52, 0x50, 0x4d, 0x4b, 0x49, 0x47, 0x45,
  0x43, 0x41, 0x3f, 0x3d, 0x3b, 0x39, 0x37, 0x36, 0x34, 0x32, 0x30, 0x2f,
  0x2d, 0x2c, 0x2a, 0x28, 0x27, 0x25, 0x24, 0x22, 0x21, 0x1f, 0x1e, 0x1d,
  0x1b, 0x1a, 0x19, 0x17, 0x16, 0x15, 0x14, 0x12, 0x11, 0x10, 0x0f, 0x0d,
  0x0c, 0x0b, 0x0a, 0x09, 0x08, 0x07, 0x06, 0x05, 0x04, 0x03, 0x02, 0x01]

/-- `wmul32_hi` (root.rs): high half of the widening 32-bit multiply. -/
def wmul32_hi (a b : Nat) : Nat := a * b / 2 ^ 32

/-- An `i8` read of the low byte of a machine integer. -/
def toI8 (x : Nat) : Int :=
  if x % 256 < 128 then (x % 256 : Int) else (x % 256 : Int) - 256

/-- An `i8` cast into `u128` (two's complement). -/
def int_as_u128 (c : Int) : Nat := (c % (2 ^ 128 : Int)).toNat

/-- The final correction loop of root.rs step 6 (`while e >= elim`); at
most two steps are ever taken, the fuel is generous. -/
def sqrt_fix_loop : Nat → Nat → Nat → Nat → Nat × Nat
  | 0, s, e, _ => (s, e)
  | fuel + 1, s, e, elim =>
    if elim ≤ e then sqrt_fix_loop fuel (s + 1) (e - elim) (elim + 2)
    else (s, e)

/-- `<u64 as NormalizedRootRem>::normed_sqrt_rem` (root.rs): table
lookup, two Newton iterations on the inverse square root, a multiply
back, a third Newton step on the root, then the correction loop.  The
`u32` subtractions never underflow on normalized inputs and are embedded
as plain `Nat` subtraction. -/
def normed_sqrt_rem_u64 (n : Nat) : Nat × Nat :=
  let n32 := n / 2 ^ 32
  let r := 256 + RSQRT_TAB.getD (n32 / 2 ^ 25 - 32) 0
  let r := 3 * r * 2 ^ 21 - wmul32_hi n32 (r * r * r * 2 ^ 5 % 2 ^ 32)
  let t := 3 * 2 ^ 28 - wmul32_hi r (wmul32_hi r n32)
  let r := wmul32_hi r t
  let r := r * 2 ^ 4 % 2 ^ 32
  let s := wmul32_hi r n32 * 2 % 2 ^ 32
  let s := s - 10
  let e := n - s * s
  let s := (s + wmul32_hi (e / 2 ^ 32 % 2 ^ 32) r) % 2 ^ 32
  let e := n - s * s
  sqrt_fix_loop 8 s e (2 * s + 1)

/-- `<u64 as RootRem>::sqrt_rem` (root.rs): normalize by an even shift,
take the normalized root, shift back, recompute the remainder. -/
def u64_sqrt_rem (n : Nat) : Nat × Nat :=
  if n = 0 then (0, 0)
  else
    let shift := lz64 n - lz64 n % 2
    let z := normed_sqrt_rem_u64 (n * 2 ^ shift % WB)
    let root := z.1 / 2 ^ (shift / 2)
    (root, if shift ≠ 0 then n - root * root else z.2)

/-- `<u128 as NormalizedRootRem>::normed_sqrt_rem` (root.rs): the
4-to-2 Karatsuba step over the 32-bit halves of the two words; the
bit-ors combine disjoint bit ranges and are embedded as sums. -/
def normed_sqrt_rem_u128 (n : Nat) : Nat × Nat :=
  let n0 := n % WB
  let n1 := n / WB
  let z := normed_sqrt_rem_u64 n1
  let s1 := z.1
  let r0 := z.2 * 2 ^ 31 % WB + n0 / 2 ^ 33
  let q0 := r0 / s1
  let u0 := r0 % s1
  let q := if q0 / 2 ^ 32 > 0 then q0 - 1 else q0
  let u := if q0 / 2 ^ 32 > 0 then u0 + s1 else u0
  let s := s1 * 2 ^ 32 + q % 2 ^ 32
  let r := u * 2 ^ 33 % WB + n0 % 2 ^ 33
  let q2 := q % 2 ^ 32 * (q % 2 ^ 32) % WB
  let cc := toI8 (u / 2 ^ 31) - (if r < q2 then 1 else 0)
  let r := (r + WB - q2) % WB
  if cc < 0 then
    let ra := (r + s) % WB
    let cA : Int := if ra < s then 1 else 0
    let sp := s - 1
    let rb := (ra + sp) % WB
    let cB : Int := if rb < sp then 1 else 0
    (sp, int_as_u128 (cc + cA + cB) * WB % DWB + rb)
  else (s, int_as_u128 cc * WB % DWB + r)

/-- `<u128 as RootRem>::sqrt_rem` (root.rs). -/
def u128_sqrt_rem (n : Nat) : Nat × Nat :=
  if n = 0 then (0, 0)
  else if n ≤ WB - 1 then u64_sqrt_rem n
  else
    let shift := lz128 n - lz128 n % 2
    let z := normed_sqrt_rem_u128 (n * 2 ^ shift % DWB)
    let root := z.1 / 2 ^ (shift / 2)
    (root, if shift ≠ 0 then n - root * root else z.2)

end Dashu

namespace Dashu

/-- Modelled from the spec: `add::add_in_place(lhs, rhs)` (§4.2): add
the words of `rhs` into `lhs`, wrapping modulo `WB^lhs.len`, returning
the final carry. -/
def add_in_place (lhs : Buffer) (rhs : List Nat) : Buffer × Bool :=
  (wordsOf (wordsVal lhs + wordsVal rhs) lhs.length,
   decide (WB ^ lhs.length ≤ wordsVal lhs + wordsVal rhs))

/-- Modelled from the spec: `add::add_word_in_place`. -/
def add_word_in_place (b : Buffer) (w : Nat) : Buffer × Bool :=
  add_in_place b [w]

/-- Modelled from the spec: `add::sub_one_in_place`. -/
def sub_one_in_place (b : Buffer) : Buffer × Bool := sub_in_place b [1]

/-- Modelled from the spec: `shift::shr_in_place_with_carry(words,
shift, carry)` (§4.2 "Shifts"): shift right in place, shifting the carry
parameter in at the top; the dropped bits are returned in the high bits
of a word. -/
def shr_in_place_with_carry (words : Buffer) (shift high_bits : Nat) :
    Buffer × Nat :=
  (wordsOf ((wordsVal words + high_bits * WB ^ words.length) / 2 ^ shift)
    words.length,
   wordsVal words % 2 ^ shift * 2 ^ (WORD_BITS - shift))

/-- Modelled from the spec: `mul::add_mul_word_in_place(words, mult,
rhs)` (§4.2): `words += mult * rhs` in place, returning the carry
word. -/
def add_mul_word_in_place (words : Buffer) (mult : Nat)
    (rhs : List Nat) : Buffer × Nat :=
  (wordsOf (wordsVal words + mult * wordsVal rhs) words.length,
   (wordsVal words + mult * wordsVal rhs) / WB ^ words.length)

/-- Modelled from the spec: `sqr::square(dst, src)` writes `src²` over
the zero-filled destination. -/
def square (dst_len : Nat) (src : List Nat) : Buffer :=
  wordsOf (wordsVal src ^ 2) dst_len

/-- Write `seg` over `l` starting at index `i` (a mutable sub-slice
update). -/
def setSlice (l : List Nat) (i : Nat) (seg : List Nat) : List Nat :=
  l.take i ++ seg ++ l.drop (i + seg.length)

/-- The sub-slice `l[i..j]`. -/
def slc (l : List Nat) (i j : Nat) : List Nat := (l.drop i).take (j - i)

/-- `sqrt_rem_42` (karatsuba.rs): the dedicated 4-to-2 word base case;
returns the updated `b` (root), the updated `a` (remainder in the low
two words) and the remainder's carry. -/
def sqrt_rem_42 (_b a : Buffer) : Buffer × Buffer × Bool :=
  let z := u128_sqrt_rem (highest_dword a)
  let s1 := z.1 % WB
  let r1_lo := z.2 % WB
  let r1_hi := z.2 / WB
  let r0_hi := (r1_hi * 2 ^ 63 % WB + r1_lo / 2) % WB
  let r0_lo := (r1_lo * 2 ^ 63 % WB + a.getD 1 0 / 2) % WB
  let dv := double_word r0_lo r0_hi
  let q0 := dv / s1
  let u0 := dv % s1
  let q := if q0 / WB > 0 then q0 - 1 else q0
  let u1 := if q0 / WB > 0 then u0 + s1 else u0
  let u := (u1 * 2 + a.getD 1 0 % 2) % DWB
  let qw := q % WB
  let u_lo := u % WB
  let u_hi := u / WB
  let s := double_word qw s1
  let q2 := qw * qw
  let lhs := double_word (a.getD 0 0) u_lo
  let r := (lhs + DWB - q2) % DWB
  let c := toI8 u_hi - (if lhs < q2 then 1 else 0)
  if c < 0 then
    let ra := (r + s) % DWB
    let cA : Int := if DWB ≤ r + s then 1 else 0
    let sp := s - 1
    let rb := (ra + sp) % DWB
    let cB : Int := if DWB ≤ ra + sp then 1 else 0
    (wordsOf sp 2, wordsOf rb 2 ++ a.drop 2, decide (0 < c + cA + cB))
  else (wordsOf s 2, wordsOf r 2 ++ a.drop 2, decide (0 < c))

/-- `sqrt_rem` (karatsuba.rs): Zimmermann's Karatsuba square root on an
even-length normalized word slice; the root fills `b`, the remainder the
low half of `a`, the returned flag is the remainder's carry.  The fuel
(instantiated with the word count) makes the halving recursion
structural; every in-place sub-slice mutation of the Rust is an explicit
`setSlice`. -/
def sqrt_rem_slice : Nat → Buffer → Buffer → Buffer × Buffer × Bool
  | 0, b, a => (b, a, false)
  | fuel + 1, b, a =>
    if a.length = 4 then sqrt_rem_42 b a
    else
      let n := a.length / 2
      let split := n / 2
      let rec1 := sqrt_rem_slice fuel (b.drop split) (a.drop (2 * split))
      let r1_top := rec1.2.2
      let b1 := setSlice b split rec1.1
      let a1 := setSlice a (2 * split) rec1.2.1
      let a2 := if r1_top then
          setSlice a1 (2 * split)
            (sub_in_place (slc a1 (2 * split) (split + n)) (slc b1 split n)).1
        else a1
      let dr := div_rem_in_place (slc a2 split (split + n)) (slc b1 split n)
      let carry := dr.2
      let a3 := setSlice a2 split dr.1
      let b2 := setSlice b1 0 (slc a3 n (split + n))
      let b3 := setSlice b2 0
        (shr_in_place_with_carry (slc b2 0 split) 1
          (if r1_top ≠ carry then 1 else 0)).1
      let q_top := r1_top && carry
      let oddu := a3.getD split 0 % 2 ≠ 0
      let add1 := add_in_place (slc a3 split n) (slc b3 split n)
      let a4 := if oddu then setSlice a3 split add1.1 else a3
      let c0 : Int := if oddu then (if add1.2 then 1 else 0) else 0
      let a_lo := slc a4 0 n
      let a_hi0 := square (2 * split) (slc b3 0 split)
        ++ List.replicate (n - 2 * split) 0
      let a_hi := if 2 * split < n then
          setSlice a_hi0 (2 * split) [if q_top then 1 else 0]
        else a_hi0
      let c1 : Int := if 2 * split < n then c0
        else c0 - (if q_top then 1 else 0)
      let sub2 := sub_in_place a_lo a_hi
      let c2 : Int := c1 - (if sub2.2 then 1 else 0)
      let a5 := sub2.1 ++ a_hi
      if c2 < 0 then
        let aw := add_word_in_place (slc b3 split n) (if q_top then 1 else 0)
        let b4 := setSlice b3 split aw.1
        let am := add_mul_word_in_place (slc a5 0 split) 2 (slc b4 0 split)
        let a6 := setSlice a5 0 am.1
        let c3 := c2 + toI8 am.2 + 2 * (if aw.2 then 1 else 0)
        let so := sub_one_in_place (slc a6 0 n)
        let a7 := setSlice a6 0 so.1
        let c4 := c3 - (if so.2 then 1 else 0)
        let b5 := setSlice b4 0 (sub_one_in_place (slc b4 0 n)).1
        (b5, a7, decide (0 < c4))
      else (b3, a5, decide (0 < c2))

/-- `sqrt_rem` entry: fuel instantiated with the input length. -/
def karatsuba_sqrt_rem (b a : Buffer) : Buffer × Buffer × Bool :=
  sqrt_rem_slice a.length b a

end Dashu

namespace Dashu

set_option maxRecDepth 10000 in
/-- Claim C3, refuted for the word-slice Karatsuba kernel: on the
normalized (top bit set) 6-word input below, `sqrt_rem` returns root
`s` (words of `b`), remainder `r` (low 3 words of `a`) and no carry,
but the reconstruction law fails: `value ≠ s² + r`.  (The returned `s`
is the true floor square root; the remainder is wrong, so the documented
contract and the spec law `n = r·r + e` are violated.  The native
`u64`/`u128` paths and the 4-word base case are not the source of the
error: the same run's base case is exact.) -/
theorem C3_karatsuba_sqrt_rem_wrong :
    karatsuba_sqrt_rem [0, 0, 0]
        [17485029721327973432, 7283207964119141687, 890727360438182992,
         15149836622520594227, 1736392818365009963, 10750541312280087032]
      = ([17823272896802602587, 14737050967371132991, 14082346545994115732],
         [13879961025955921887, 16012308348528262574, 264568990328740779,
          3605068695372051545, 17220874073199873664, 0], false) ∧
    19701003098197239606139520050071806902539869635232723333974146702122860885748605305707133127442457820403313995153408 ≤ wordsVal
        [17485029721327973432, 7283207964119141687, 890727360438182992,
         15149836622520594227, 1736392818365009963, 10750541312280087032] ∧
    ¬(wordsVal
        [17485029721327973432, 7283207964119141687, 890727360438182992,
         15149836622520594227, 1736392818365009963, 10750541312280087032]
      = wordsVal
          [17823272896802602587, 14737050967371132991, 14082346545994115732]
        * wordsVal
          [17823272896802602587, 14737050967371132991, 14082346545994115732]
        + wordsVal
          [13879961025955921887, 16012308348528262574, 264568990328740779]) := by
  decide

end Dashu
